import Mathlib

/-!
Verification of the Ares decoding-engine specification against a shallow
embedding of the repository's source.

The embedding covers:
* the four decoders present in the source tree (Base32, Base91, Base65536,
  Brainfuck) and their `crack` entry points;
* the human checker (`checkers/human_checker.rs`) together with a model of
  the process-wide search timer (the timer module itself is not in the
  source tree, so its pause/resume interface is modelled from the spec);
* the SQLite knowledge store (`storage/database.rs`): table semantics for
  `cache` and `failed_decodes`, the JSON serialization of decode paths, and
  the connection-opening logic of `get_db_connection`.

Rust strings are embedded as Lean `String`/`List Char`, bytes as `Nat`
(kept below 256 by explicit `% 256` where the source wraps), and fallible
operations as `Option`/`Except`.  All definitions are executable.
-/

/-- Result type of a checker, from `checkers/checker_result.rs` as used by
`human_checker.rs` and the `database.rs` tests: fields `is_identified`,
`text`, `checker_name`, `checker_description`, `description`, `link`. -/
structure CheckResult where
  is_identified : Bool
  text : String
  checker_name : String
  checker_description : String
  description : String
  link : String
deriving Repr, DecidableEq

/-- Record of one decoder attempt, from the spec (§3 CrackResult) and the
usage in the decoder sources: `CrackResult::new(self, text)` starts with
`unencrypted_text = None` and `success = false`; `update_checker` copies the
checker verdict into `success` and the checker identity fields.  The source
file `decoders/crack_results.rs` is not in the tree, so the initial values
are modelled from the spec and from how the decoders return a fresh result
as the failure case.  `α` is the candidate payload: the Base32 decoder in
this tree stores `Option<String>`, the other decoders `Option<Vec<String>>`. -/
structure CrackResult (α : Type) where
  decoder_name : String
  input : String
  unencrypted_text : Option α
  success : Bool
  checker_name : String
  checker_description : String
deriving Repr, DecidableEq

/-- Modelled from the spec: `CrackResult::new` (file `crack_results.rs` is
missing from the tree).  A fresh result for the given decoder and input:
no candidate, not successful. -/
def crackResultNew (α : Type) (decoderName text : String) : CrackResult α :=
  ⟨decoderName, text, none, false, "", ""⟩

/-- Modelled from the spec: `CrackResult::update_checker` (file
`crack_results.rs` is missing from the tree).  Copies the checker verdict:
`success` flag, `checker_name` and `checker_description` (spec §3). -/
def updateChecker {α : Type} (r : CrackResult α) (cr : CheckResult) : CrackResult α :=
  { r with
    success := cr.is_identified
    checker_name := cr.checker_name
    checker_description := cr.checker_description }

/-- Modelled from the spec: `check_string_success` (file
`decoders/interface.rs` is missing from the tree).  Spec §4.1: decoded must
differ non-trivially from the input — same string, or empty, ⇒ reject. -/
def check_string_success (decoded original : String) : Bool :=
  ¬(decoded = "" ∨ decoded = original)

/-- The replacement character U+FFFD emitted by lossy UTF-8 conversion. -/
def replacementChar : Char := Char.ofNat 0xFFFD

/-- Decoding of a byte sequence as UTF-8 with U+FFFD replacement for
invalid sequences, modelling Rust `String::from_utf8_lossy`.  The first
argument is fuel; every step consumes at least one byte, so fuel equal to
the length of the byte list suffices (see `utf8DecodeLossy`). -/
def utf8DecodeLossyF : Nat → List Nat → List Char
  | 0, _ => []
  | _ + 1, [] => []
  | f + 1, b1 :: rest =>
    if b1 < 0x80 then Char.ofNat b1 :: utf8DecodeLossyF f rest
    else if 0xC2 ≤ b1 ∧ b1 ≤ 0xDF then
      match rest with
      | [] => [replacementChar]
      | b2 :: rest2 =>
        if 0x80 ≤ b2 ∧ b2 ≤ 0xBF then
          Char.ofNat ((b1 - 0xC0) * 0x40 + (b2 - 0x80)) :: utf8DecodeLossyF f rest2
        else replacementChar :: utf8DecodeLossyF f rest
    else if 0xE0 ≤ b1 ∧ b1 ≤ 0xEF then
      match rest with
      | [] => [replacementChar]
      | b2 :: rest2 =>
        if (if b1 = 0xE0 then 0xA0 else 0x80) ≤ b2 ∧
            b2 ≤ (if b1 = 0xED then 0x9F else 0xBF) then
          match rest2 with
          | [] => [replacementChar, replacementChar]
          | b3 :: rest3 =>
            if 0x80 ≤ b3 ∧ b3 ≤ 0xBF then
              Char.ofNat ((b1 - 0xE0) * 0x1000 + (b2 - 0x80) * 0x40 + (b3 - 0x80)) ::
                utf8DecodeLossyF f rest3
            else replacementChar :: utf8DecodeLossyF f rest2
        else replacementChar :: utf8DecodeLossyF f rest
    else if 0xF0 ≤ b1 ∧ b1 ≤ 0xF4 then
      match rest with
      | [] => [replacementChar]
      | b2 :: rest2 =>
        if (if b1 = 0xF0 then 0x90 else 0x80) ≤ b2 ∧
            b2 ≤ (if b1 = 0xF4 then 0x8F else 0xBF) then
          match rest2 with
          | [] => [replacementChar, replacementChar]
          | b3 :: rest3 =>
            if 0x80 ≤ b3 ∧ b3 ≤ 0xBF then
              match rest3 with
              | [] => [replacementChar, replacementChar, replacementChar]
              | b4 :: rest4 =>
                if 0x80 ≤ b4 ∧ b4 ≤ 0xBF then
                  Char.ofNat ((b1 - 0xF0) * 0x40000 + (b2 - 0x80) * 0x1000 +
                      (b3 - 0x80) * 0x40 + (b4 - 0x80)) :: utf8DecodeLossyF f rest4
                else replacementChar :: utf8DecodeLossyF f rest3
            else replacementChar :: utf8DecodeLossyF f rest2
        else replacementChar :: utf8DecodeLossyF f rest
    else replacementChar :: utf8DecodeLossyF f rest

/-- Decoding of a byte sequence as UTF-8 with U+FFFD replacement, modelling
Rust `String::from_utf8_lossy`; wrapper supplying sufficient fuel. -/
def utf8DecodeLossy (bs : List Nat) : List Char :=
  utf8DecodeLossyF bs.length bs

/-- The basE91 alphabet used by the `base91` crate (Joachim Henke's
standard table): decode value of a character, `none` for characters
outside the table (which `slice_decode` skips). -/
def base91DecVal (c : Char) : Option Nat :=
  List.findIdx? (· = c)
    "ABCDEFGHIJKLMNOPQRSTUVWXYZabcdefghijklmnopqrstuvwxyz0123456789!#$%&()*+,./:;<=>?@[]^_`{|}~\"".data

/-- Accumulator state of the basE91 stream decoder: the bit buffer `b`
holding `n` bits, and the pending first-of-pair value `v`.  Output bytes
are collected in reverse. -/
structure B91State where
  b : Nat
  n : Nat
  v : Option Nat
  outRev : List Nat

/-- One input character of basE91 decoding, following the reference
`slice_decode` loop: characters outside the table are skipped; the first
character of a pair is stored in `v`; the second completes
`v + d * 91`, whose 13 or 14 bits enter the buffer, from which whole bytes
are extracted while more than 7 bits remain.  The buffer never exceeds
21 bits, so at most two bytes are extracted per step. -/
def b91Step (st : B91State) (c : Char) : B91State :=
  match base91DecVal c with
  | none => st
  | some d =>
    match st.v with
    | none => { st with v := some d }
    | some v0 =>
      let v1 := v0 + d * 91
      let b1 := st.b ||| (v1 <<< st.n)
      let n1 := st.n + (if 88 < (v1 &&& 8191) then 13 else 14)
      let o1 := b1 &&& 255
      let b2 := b1 >>> 8
      let n2 := n1 - 8
      if 7 < n2 then
        ⟨b2 >>> 8, n2 - 8, none, (b2 &&& 255) :: o1 :: st.outRev⟩
      else
        ⟨b2, n2, none, o1 :: st.outRev⟩

/-- Flush of the basE91 decoder at end of input: a pending odd character
contributes one final byte `(b ||| v <<< n) &&& 255`. -/
def b91Flush (st : B91State) : List Nat :=
  match st.v with
  | none => st.outRev
  | some v0 => ((st.b ||| (v0 <<< st.n)) &&& 255) :: st.outRev

/-- Decoded byte sequence of `base91::slice_decode` on the bytes of
`text` (all alphabet characters are ASCII, so iterating over chars agrees
with iterating over bytes; non-alphabet bytes are skipped). -/
def base91SliceDecode (text : String) : List Nat :=
  (b91Flush (text.data.foldl b91Step ⟨0, 0, none, []⟩)).reverse

/-- The helper `decode_base91_no_error_handling` of
`decoders/base91_decoder.rs`: decodes and converts the bytes with lossy
UTF-8 conversion; it always returns `Some`. -/
def decode_base91_no_error_handling (text : String) : Option String :=
  some (String.mk (utf8DecodeLossy (base91SliceDecode text)))

/-- The `crack` implementation of `decoders/base91_decoder.rs`.  The
checker argument models `CheckerTypes::check`. -/
def base91Crack (checker : String → CheckResult) (text : String) :
    CrackResult (List String) :=
  let decoded_text := decode_base91_no_error_handling text
  let results := crackResultNew (List String) "Base91" text
  match decoded_text with
  | none => results
  | some decoded_text =>
    if ¬check_string_success decoded_text text then results
    else
      let checker_result := checker decoded_text
      let results := { results with unencrypted_text := some [decoded_text] }
      updateChecker results checker_result

/-- Block table of the base65536 encoding as exercised by this repository:
for each second-byte value the Unicode block in which the code point lives.
The `base65536` crate is an external library; the entries here are the ones
forced by the repository's own doctest (the Sphinx seed vector), which
fixes `blockStart + firstByte = codepoint` for every used block. -/
def base65536Blocks : List (Nat × Nat) :=
  [(0x5500, 32), (0x9800, 99), (0x9C00, 103), (0x9E00, 105), (0xA300, 108),
   (0x12000, 111), (0x12100, 112), (0x13000, 114), (0x13300, 117),
   (0x14400, 118), (0x14500, 119), (0x16800, 120), (0x16900, 121),
   (0x20000, 122)]

/-- Byte-pair decoding of a base65536 code point sequence (strict mode,
`ignore_garbage = false`): each code point contributes its low byte and the
byte determined by its block; the padding block `0x1500` carries a lone
final byte and may only appear last; unknown blocks are an error. -/
def base65536DecodeBytes : List Char → Option (List Nat)
  | [] => some []
  | c :: rest =>
    let cp := c.toNat
    let lo := cp % 256
    let block := cp - lo
    if block = 0x1500 then
      match rest with
      | [] => some [lo]
      | _ :: _ => none
    else
      match (base65536Blocks.find? (fun p => p.1 = block)).map Prod.snd with
      | none => none
      | some hi => (base65536DecodeBytes rest).map (fun bs => lo :: hi :: bs)

/-- The helper `decode_base65536_no_error_handling` of
`decoders/base65536_decoder.rs`: `base65536::decode(text, false)` followed
by lossy UTF-8 conversion of the bytes. -/
def decode_base65536_no_error_handling (text : String) : Option String :=
  (base65536DecodeBytes text.data).map (fun bs => String.mk (utf8DecodeLossy bs))

/-- The `crack` implementation of `decoders/base65536_decoder.rs`. -/
def base65536Crack (checker : String → CheckResult) (text : String) :
    CrackResult (List String) :=
  let decoded_text := decode_base65536_no_error_handling text
  let results := crackResultNew (List String) "Base65536" text
  match decoded_text with
  | none => results
  | some decoded_text =>
    if ¬check_string_success decoded_text text then results
    else
      let checker_result := checker decoded_text
      let results := { results with unencrypted_text := some [decoded_text] }
      updateChecker results checker_result

/-- Value of one RFC 4648 base32 symbol (A–Z, 2–7), as accepted by
`data_encoding::BASE32`. -/
def base32SymVal (c : Char) : Option Nat :=
  if 'A' ≤ c ∧ c ≤ 'Z' then some (c.toNat - 'A'.toNat)
  else if '2' ≤ c ∧ c ≤ '7' then some (c.toNat - '2'.toNat + 26)
  else none

/-- Big-endian accumulation of 5-bit symbol values into a single number. -/
def base32Acc (vals : List Nat) : Nat :=
  vals.foldl (fun acc v => acc * 32 + v) 0

/-- Big-endian byte expansion of `n` into `len` bytes. -/
def natToBytesBE (len n : Nat) : List Nat :=
  match len with
  | 0 => []
  | len + 1 => (n >>> (8 * len)) % 256 :: natToBytesBE len (n % (2 ^ (8 * len)))

/-- Decoding of canonical padded RFC 4648 base32, modelling
`data_encoding::BASE32.decode`: the length must be a multiple of 8,
padding `=` only at the end in a canonical amount, and the unused trailing
bits must be zero; otherwise an error. -/
def base32DecodeBytes (cs : List Char) : Option (List Nat) :=
  if cs.length % 8 ≠ 0 then none
  else
    let body := cs.takeWhile (· ≠ '=')
    let pad := cs.drop body.length
    if ¬pad.all (· = '=') then none
    else if ¬(body.length % 8 = 0 ∧ pad.length = 0 ∨
              body.length % 8 = 2 ∧ pad.length = 6 ∨
              body.length % 8 = 4 ∧ pad.length = 4 ∨
              body.length % 8 = 5 ∧ pad.length = 3 ∨
              body.length % 8 = 7 ∧ pad.length = 1) then none
    else
      match body.mapM base32SymVal with
      | none => none
      | some vals =>
        let nbits := vals.length * 5
        let nbytes := nbits / 8
        let trailing := nbits - nbytes * 8
        let acc := base32Acc vals
        if acc % 2 ^ trailing ≠ 0 then none
        else some (natToBytesBE nbytes (acc >>> trailing))

/-- The helper `decode_base32_no_error_handling` of
`decoders/base32_decoder.rs`: `BASE32.decode` on the bytes of the text,
then lossy UTF-8 conversion of the decoded bytes. -/
def decode_base32_no_error_handling (text : String) : Option String :=
  (base32DecodeBytes text.data).map (fun bs => String.mk (utf8DecodeLossy bs))

/-- The `crack` implementation of `decoders/base32_decoder.rs`.  This file
is from the tree's older decoder generation: `unencrypted_text` holds a
single `String`. -/
def base32Crack (checker : String → CheckResult) (text : String) :
    CrackResult String :=
  let decoded_text := decode_base32_no_error_handling text
  let results := crackResultNew String "base32" text
  match decoded_text with
  | none => results
  | some decoded_text =>
    if ¬check_string_success decoded_text text then results
    else
      let checker_result := checker decoded_text
      let results := { results with unencrypted_text := some decoded_text }
      updateChecker results checker_result

/-- Instruction set of the Brainfuck abstract syntax: the eight commands,
with the two bracket commands represented as a structured loop. -/
inductive BfInstr where
  | inc
  | dec
  | movl
  | movr
  | out
  | inp
  | loop (body : List BfInstr)

/-- Machine state of the Brainfuck interpreter: the tape as a zipper
(cells left of the pointer, nearest first; the current cell; cells to the
right), plus the output bytes in reverse order.  The tape is unbounded in
both directions and cells wrap modulo 256, matching the behaviour the
repository's tests observe from the `brainfuck_exe` crate. -/
structure BfState where
  left : List Nat
  cur : Nat
  right : List Nat
  outRev : List Nat

/-- Pointer move left on the zipper tape, materializing a zero cell when
moving into unvisited tape. -/
def bfMoveL (s : BfState) : BfState :=
  match s.left with
  | [] => ⟨[], 0, s.cur :: s.right, s.outRev⟩
  | c :: l => ⟨l, c, s.cur :: s.right, s.outRev⟩

/-- Pointer move right on the zipper tape. -/
def bfMoveR (s : BfState) : BfState :=
  match s.right with
  | [] => ⟨s.cur :: s.left, 0, [], s.outRev⟩
  | c :: r => ⟨s.cur :: s.left, c, r, s.outRev⟩

/-- Fuel-indexed execution of a Brainfuck program.  Every recursive call
consumes one unit of fuel, so the function is structurally recursive and
computes by reduction; `none` on fuel exhaustion models non-termination
(the real interpreter would simply not return), and `none` on `inp` models
the absence of an input stream (`crack` rejects programs containing `,`
before ever running them).  A loop with a non-zero current cell runs its
body and then re-tests, as the bracket semantics prescribe. -/
def bfRun : Nat → List BfInstr → BfState → Option BfState
  | 0, _, _ => none
  | _ + 1, [], s => some s
  | f + 1, .inc :: r, s => bfRun f r { s with cur := (s.cur + 1) % 256 }
  | f + 1, .dec :: r, s => bfRun f r { s with cur := (s.cur + 255) % 256 }
  | f + 1, .movl :: r, s => bfRun f r (bfMoveL s)
  | f + 1, .movr :: r, s => bfRun f r (bfMoveR s)
  | f + 1, .out :: r, s => bfRun f r { s with outRev := s.cur :: s.outRev }
  | _ + 1, .inp :: _, _ => none
  | f + 1, .loop b :: r, s =>
    if s.cur = 0 then bfRun f r s
    else
      match bfRun f b s with
      | none => none
      | some t => bfRun f (.loop b :: r) t

/-- Parser from program text to Brainfuck syntax: non-command characters
are comments, brackets must match (an unmatched bracket is the parse error
on which `brainfuck_exe` reports `Err`).  `acc` collects the current
sequence in reverse; `stk` holds the suspended outer sequences of open
loops. -/
def bfParseAux : List Char → List BfInstr → List (List BfInstr) → Option (List BfInstr)
  | [], acc, [] => some acc.reverse
  | [], _, _ :: _ => none
  | c :: cs, acc, stk =>
    if c = '+' then bfParseAux cs (.inc :: acc) stk
    else if c = '-' then bfParseAux cs (.dec :: acc) stk
    else if c = '<' then bfParseAux cs (.movl :: acc) stk
    else if c = '>' then bfParseAux cs (.movr :: acc) stk
    else if c = '.' then bfParseAux cs (.out :: acc) stk
    else if c = ',' then bfParseAux cs (.inp :: acc) stk
    else if c = '[' then bfParseAux cs [] (acc :: stk)
    else if c = ']' then
      match stk with
      | [] => none
      | a :: stk2 => bfParseAux cs (.loop acc.reverse :: a) stk2
    else bfParseAux cs acc stk

/-- Fuel given to the Brainfuck interpreter; large enough for every
execution this development evaluates or reasons about. -/
def bfFuel : Nat := 1000000

/-- Interpretation of a Brainfuck program text, modelling
`Brainfuck::new(text).with_output_ref(&mut buf).execute()` followed by
`String::from_utf8(buf)`: the crate emits each printed cell as a character
(the wrapping test observes 255 printed as 'ÿ'), so the buffer is the
UTF-8 encoding of those characters and the conversion back always
succeeds; the model therefore produces the characters directly. -/
def bfInterpret (text : String) : Option (List Char) :=
  match bfParseAux text.data [] [] with
  | none => none
  | some prog =>
    match bfRun bfFuel prog ⟨[], 0, [], []⟩ with
    | none => none
    | some st => some (st.outRev.reverse.map (fun b => Char.ofNat b))

/-- Character count helper: the number of characters of `text` satisfying
`p`, modelling `text.matches(p).count()`. -/
def strCountP (p : Char → Bool) (text : String) : Nat :=
  text.data.countP p

/-- The `crack` implementation of `decoders/brainfuck_interpreter.rs`:
guard clauses rejecting text that realistically is not a Brainfuck program
(a `,` anywhere; not ending in `.` or fewer than five `.`; fewer than
twenty characters from `+-<>[]`), then interpretation, with the decoded
output accepted unconditionally on success. -/
def brainfuckCrack (checker : String → CheckResult) (text : String) :
    CrackResult (List String) :=
  let results := crackResultNew (List String) "Brainfuck" text
  if text.data.contains ',' then results
  else if ¬(text.data.getLast? = some '.') ∨ strCountP (· = '.') text < 5 then results
  else if strCountP (fun c => "+-<>[]".data.contains c) text < 20 then results
  else
    match bfInterpret text with
    | none => results
    | some outChars =>
      let decoded_text := String.mk outChars
      let checker_result := checker decoded_text
      let results := { results with unencrypted_text := some [decoded_text] }
      updateChecker results checker_result

/-- Configuration flags consulted by the human checker
(`config::get_config()`): `human_checker_on` and `api_mode`. -/
structure HcConfig where
  human_checker_on : Bool
  api_mode : Bool

/-- Row of the `failed_decodes` table (`storage/database.rs`,
`FailedDecodesRow`). -/
structure FailedDecodesRow where
  id : Nat
  plaintext : String
  checker : String
  timestamp : String
deriving Repr, DecidableEq

/-- The table mutation performed by `insert_failed_decodes` of
`storage/database.rs`: appends a row holding the given text and the
checker name of the `CheckResult`, with an autoincremented id and the
current timestamp. -/
def insertFailedDecodesTable (tbl : List FailedDecodesRow) (text : String)
    (check_result : CheckResult) (ts : String) : List FailedDecodesRow :=
  tbl ++ [⟨tbl.length + 1, text, check_result.checker_name, ts⟩]

/-- Process-wide state touched by `human_checker`: the seen-prompts set
(`SEEN_PROMPTS`), the `failed_decodes` table reached through
`database::insert_human_rejection`, and counters of `timer::pause()` and
`timer::resume()` calls.  The timer module is not in the source tree; per
spec §4.5 pause/resume maintain a depth counter, so balancedness of a call
is exactly `timerPauses` and `timerResumes` growing by equal amounts. -/
structure HcState where
  seenPrompts : List String
  failedDecodes : List FailedDecodesRow
  timerPauses : Nat
  timerResumes : Nat
deriving Repr, DecidableEq

/-- First-character test implementing
`reply.to_ascii_lowercase().starts_with('y')`: ASCII lowercasing maps `Y`
to `y` and leaves every other first character distinct from `y`. -/
def replyStartsWithYLower (reply : String) : Bool :=
  match reply.data with
  | [] => false
  | c :: _ =>
    (if 'A' ≤ c ∧ c ≤ 'Z' then Char.ofNat (c.toNat + 32) else c) = 'y'

/-- The `human_checker` function of `checkers/human_checker.rs`, embedded
over explicit state.  `reply` is the line the human types, `dbOk` whether
the database insert succeeds (its error is only logged), `ts` the
timestamp used for an inserted row.  Control flow follows the source:
pause the timer; if the checker is off or api mode is on, resume and
return true; if the `(description, text)` prompt key was already seen,
return true (without resuming); otherwise record the key, prompt, read the
reply, resume, and on a non-`y` reply insert a `failed_decodes` row and
return false. -/
def humanChecker (cfg : HcConfig) (reply : String) (dbOk : Bool) (ts : String)
    (input : CheckResult) (st : HcState) : Bool × HcState :=
  let st := { st with timerPauses := st.timerPauses + 1 }
  if ¬cfg.human_checker_on ∨ cfg.api_mode then
    (true, { st with timerResumes := st.timerResumes + 1 })
  else
    let promptKey := input.description ++ input.text
    if promptKey ∈ st.seenPrompts then
      (true, st)
    else
      let st := { st with seenPrompts := promptKey :: st.seenPrompts }
      let result := replyStartsWithYLower reply
      let st := { st with timerResumes := st.timerResumes + 1 }
      if result then (true, st)
      else
        (false,
         if dbOk then
           { st with
             failedDecodes := insertFailedDecodesTable st.failedDecodes input.text input ts }
         else st)

/-- Escape of one character inside a JSON string literal: quotes and
backslashes get a backslash prefix. -/
def jsonEscapeChar (c : Char) : List Char :=
  if c = '"' ∨ c = '\\' then ['\\', c] else [c]

/-- Escape of a character sequence for use inside a JSON string literal. -/
def jsonEscape : List Char → List Char
  | [] => []
  | c :: cs => jsonEscapeChar c ++ jsonEscape cs

/-- Encoding of the tail of a JSON array of strings: the items with their
quotes and separating commas, ending with the closing bracket. -/
def encodeJsonItems : List String → List Char
  | [] => [']']
  | [s] => '"' :: (jsonEscape s.data ++ '"' :: [']'])
  | s :: rest => '"' :: (jsonEscape s.data ++ '"' :: ',' :: encodeJsonItems rest)

/-- Serialization of a list of strings as a JSON array, modelling
`serde_json::to_string` on a `Vec<String>`. -/
def encodeJsonStringArray (l : List String) : String :=
  String.mk ('[' :: encodeJsonItems l)

/-- Parser for the body of a JSON string literal (after the opening
quote): unescapes until the closing quote and returns the content and the
remaining input.  Fueled so that it is structurally recursive; fuel equal
to the input length suffices. -/
def parseJsonStrF : Nat → List Char → Option (List Char × List Char)
  | 0, _ => none
  | _ + 1, [] => none
  | f + 1, c :: rest =>
    if c = '\\' then
      match rest with
      | [] => none
      | d :: rest2 => (parseJsonStrF f rest2).map (fun p => (d :: p.1, p.2))
    else if c = '"' then some ([], rest)
    else (parseJsonStrF f rest).map (fun p => (c :: p.1, p.2))

/-- Parser for the items of a non-empty JSON string array (input begins at
the first item's opening quote); fueled structurally.  After an item, a
closing bracket ends the array and a comma continues it. -/
def parseJsonItemsF : Nat → List Char → Option (List (List Char))
  | 0, _ => none
  | f + 1, l =>
    match l with
    | [] => none
    | c :: rest =>
      if c = '"' then
        match parseJsonStrF rest.length rest with
        | none => none
        | some (s, r) =>
          if r = [']'] then some [s]
          else
            match r with
            | [] => none
            | c2 :: r2 => if c2 = ',' then (parseJsonItemsF f r2).map (s :: ·) else none
      else none

/-- Parsing of a JSON array of strings, modelling `serde_json::from_str`
to `Vec<String>` on the arrays this development serializes. -/
def decodeJsonStringArray (s : String) : Option (List String) :=
  match s.data with
  | '[' :: rest =>
    if rest = [']'] then some []
    else (parseJsonItemsF rest.length rest).map (List.map String.mk)
  | _ => none

/-- Modelled from the spec: `CrackResult::get_json` (file
`crack_results.rs` is missing from the tree; spec §3 requires CrackResult
to be serializable to a self-describing text form).  Serialized as a JSON
array of the record's fields. -/
def crackResultGetJson (r : CrackResult (List String)) : String :=
  encodeJsonStringArray
    ([r.decoder_name, r.input, if r.success then "true" else "false",
      r.checker_name, r.checker_description] ++ r.unencrypted_text.getD [])

/-- Row of the `cache` table as read back by `read_cache`
(`storage/database.rs`, `CacheRow`): `path` is the vector of
CrackResult-JSON strings recovered from the stored JSON array. -/
structure CacheRow where
  id : Nat
  encoded_text : String
  decoded_text : String
  path : List String
  successful : Bool
  execution_time_ms : Int
  timestamp : String
deriving Repr, DecidableEq

/-- Stored form of a `cache` table row: the path column as its JSON text. -/
structure CacheTableRow where
  id : Nat
  encoded_text : String
  decoded_text : String
  pathJson : String
  successful : Bool
  execution_time_ms : Int
  timestamp : String
deriving Repr, DecidableEq

/-- Entry to be inserted into the cache (`storage/database.rs`,
`CacheEntry`). -/
structure CacheEntry where
  encoded_text : String
  decoded_text : String
  path : List (CrackResult (List String))
  execution_time_ms : Int

/-- Wrapping subtraction of 1 on a 64-bit usize, modelling release-mode
Rust arithmetic: `0 - 1` wraps to `2^64 - 1`. -/
def usizeWrapSub1 (n : Nat) : Nat :=
  (n + (2 ^ 64 - 1)) % 2 ^ 64

/-- The table mutation performed by `insert_cache` of
`storage/database.rs`: each CrackResult of the path is serialized with
`get_json`, the `successful` column is taken from
`path.get(path.len() - 1)` (with wrapping usize arithmetic, so an empty
path reads index `2^64 - 1`, `get` returns `None` and the flag is false),
the path vector is serialized as a JSON array, and the row is appended
with an autoincremented id and the current timestamp. -/
def insertCacheTable (tbl : List CacheTableRow) (e : CacheEntry) (ts : String) :
    List CacheTableRow :=
  let path : List String := e.path.map crackResultGetJson
  let last_crack_result := e.path.get? (usizeWrapSub1 e.path.length)
  let successful := match last_crack_result with
    | some crack_result => crack_result.success
    | none => false
  let path_json := encodeJsonStringArray path
  tbl ++ [⟨tbl.length + 1, e.encoded_text, e.decoded_text, path_json, successful,
          e.execution_time_ms, ts⟩]

/-- The lookup performed by `read_cache` of `storage/database.rs`:
`SELECT * FROM cache WHERE encoded_text IS $1` followed by taking the
first returned row (`query.next()`); rows arrive in table (id) order.  The
stored path JSON is parsed back with `serde_json::from_str`; that call is
`unwrap`ped in the source and rows written by `insert_cache` always parse,
so a malformed column (unreachable here) is read as the empty vector. -/
def readCacheTable (tbl : List CacheTableRow) (encoded_text : String) :
    Option CacheRow :=
  (tbl.find? (fun r => r.encoded_text = encoded_text)).map (fun r =>
    ⟨r.id, r.encoded_text, r.decoded_text, (decodeJsonStringArray r.pathJson).getD [],
     r.successful, r.execution_time_ms, r.timestamp⟩)

/-- The lookup performed by `read_failed_decodes` of
`storage/database.rs`: first row whose `plaintext` matches. -/
def readFailedDecodesTable (tbl : List FailedDecodesRow) (plaintext : String) :
    Option FailedDecodesRow :=
  tbl.find? (fun r => r.plaintext = plaintext)

/-- A database connection as returned by `get_db_connection`: either the
file at the configured path or an in-memory database. -/
inductive DbConn where
  | memory
  | file (path : String)
deriving Repr, DecidableEq

/-- Database-layer error (`rusqlite::Error`): a failing `Connection::open`,
or the "no such table" failure returned by `conn.prepare` when the
database behind the connection was never given the schema. -/
inductive DbError where
  | openFailed
  | noSuchTable
deriving Repr, DecidableEq

/-- Environment of the connection logic: the `DB_PATH` once-lock (`none`
if never set, `some none` if set to no path, `some (some p)` if set to a
path) and which paths `rusqlite::Connection::open` can successfully
open. -/
structure DbWorld where
  dbPath : Option (Option String)
  openOk : String → Bool

/-- The `get_db_connection` function of `storage/database.rs`: a
configured path is opened (an unopenable path is a `rusqlite` error,
propagated, not replaced); with `DB_PATH` unset or set to `None` an
in-memory connection is opened. -/
def getDbConnection (w : DbWorld) : Except DbError DbConn :=
  match w.dbPath with
  | some (some path) => if w.openOk path then .ok (.file path) else .error .openFailed
  | some none => .ok .memory
  | none => .ok .memory

/-- The error behaviour of `insert_cache` of `storage/database.rs`: the
connection is obtained with `?` (propagating its error), but the result of
`conn.execute(INSERT ...)` is bound to `_conn_result` and discarded, so the
function returns `Ok(())` whether or not the INSERT succeeded
(`execOk`). -/
def insertCacheDb (w : DbWorld) (execOk : Bool) (e : CacheEntry) :
    Except DbError Unit :=
  match getDbConnection w with
  | .error err => .error err
  | .ok _ =>
    let _conn_result := execOk
    .ok ()

/-- The error behaviour of `insert_failed_decodes` of
`storage/database.rs`: same shape as `insertCacheDb` — the execute result
is discarded. -/
def insertFailedDecodesDb (w : DbWorld) (execOk : Bool) (text : String)
    (check_result : CheckResult) : Except DbError Unit :=
  match getDbConnection w with
  | .error err => .error err
  | .ok _ =>
    let _conn_result := execOk
    .ok ()

/-- The table reachable through a connection, as `conn.prepare` finds it:
`none` when the database behind the connection has no such table.  A
`.memory` connection is always a fresh database — `open_in_memory` in
`get_db_connection` opens a new one on every call, and the schema is
created only by `init_database`, which is reachable solely through
`setup_database`, and that sets `DB_PATH` to a file path first — so an
in-memory connection never holds the table.  For a file connection the
contents are given by `fileTables`, with `none` standing for a file
database whose schema was never initialized. -/
def connTables {α : Type} (conn : DbConn) (fileTables : String → Option α) :
    Option α :=
  match conn with
  | .memory => none
  | .file p => fileTables p

/-- The `read_cache` function of `storage/database.rs` at connection
level: obtain a connection with `?` (propagating its error), then
`conn.prepare("SELECT * FROM cache WHERE encoded_text IS $1")?`, which
fails with "no such table" when the connection's database lacks the
`cache` table (`connTables`), then the first-match query against that
table. -/
def readCacheDb (w : DbWorld) (fileTables : String → Option (List CacheTableRow))
    (encoded_text : String) : Except DbError (Option CacheRow) :=
  match getDbConnection w with
  | .error err => .error err
  | .ok conn =>
    match connTables conn fileTables with
    | none => .error .noSuchTable
    | some tbl => .ok (readCacheTable tbl encoded_text)

/-- The `read_failed_decodes` function of `storage/database.rs` at
connection level: same shape as `readCacheDb`, over the `failed_decodes`
table. -/
def readFailedDecodesDb (w : DbWorld)
    (fileTables : String → Option (List FailedDecodesRow))
    (plaintext : String) : Except DbError (Option FailedDecodesRow) :=
  match getDbConnection w with
  | .error err => .error err
  | .ok conn =>
    match connTables conn fileTables with
    | none => .error .noSuchTable
    | some tbl => .ok (readFailedDecodesTable tbl plaintext)

/-- A checker that identifies nothing; used to instantiate checker
parameters in concrete evaluations. -/
def nullChecker : String → CheckResult :=
  fun s => ⟨false, s, "NullChecker", "", "", ""⟩

/-- Sample CheckResult used by concrete instantiations. -/
def sampleCheckResult : CheckResult :=
  ⟨true, "sample text", "Athena", "checks if the plaintext is identifiable", "English plaintext", ""⟩

/-- Theorem for claim C2 (supporting the code-bug finding): on the early
return for an already-prompted `(description, text)` pair — with the human
checker on and api mode off — `human_checker` pauses the timer once and
never resumes it, so the pause depth is left unbalanced.  The concrete
input: the prompt key `description ++ text` is already in the seen-prompts
set, and the state enters with balanced counters. -/
theorem human_checker_timer_unbalanced_on_seen_prompt :
    (humanChecker ⟨true, false⟩ "y" true "ts" sampleCheckResult
      ⟨[sampleCheckResult.description ++ sampleCheckResult.text], [], 0, 0⟩).2.timerPauses = 1 ∧
    (humanChecker ⟨true, false⟩ "y" true "ts" sampleCheckResult
      ⟨[sampleCheckResult.description ++ sampleCheckResult.text], [], 0, 0⟩).2.timerResumes = 0 ∧
    (humanChecker ⟨true, false⟩ "y" true "ts" sampleCheckResult
      ⟨[sampleCheckResult.description ++ sampleCheckResult.text], [], 0, 0⟩).1 = true := by
  refine ⟨?_, ?_, ?_⟩ <;> rfl

/-- Conversion lemma: the character order agrees with the order of the
code points. -/
theorem char_le_iff_toNat {a b : Char} : a ≤ b ↔ a.toNat ≤ b.toNat := Iff.rfl

/-- Characters with equal code points are equal. -/
theorem char_toNat_inj {a b : Char} (h : a.toNat = b.toNat) : a = b := by
  rw [← Char.ofNat_toNat a, h, Char.ofNat_toNat]

/-- Code point of `Char.ofNat` on a valid code point. -/
theorem char_toNat_ofNat_of_valid {n : Nat} (h : n.isValidChar) :
    (Char.ofNat n).toNat = n := by
  simp [Char.ofNat, h, Char.ofNatAux, Char.toNat, UInt32.toNat]

/-- The ASCII-lowercase of `c` is `y` exactly for `y` and `Y`. -/
theorem lower_eq_y_iff (c : Char) :
    ((if 'A' ≤ c ∧ c ≤ 'Z' then Char.ofNat (c.toNat + 32) else c) = 'y') ↔
      (c = 'y' ∨ c = 'Y') := by
  by_cases hu : 'A' ≤ c ∧ c ≤ 'Z'
  · have hA : (65 : Nat) ≤ c.toNat := char_le_iff_toNat.mp hu.1
    have hZ : c.toNat ≤ 90 := char_le_iff_toNat.mp hu.2
    rw [if_pos hu]
    constructor
    · intro h
      right
      have hv : (c.toNat + 32).isValidChar := Or.inl (by omega)
      have h2 := congrArg Char.toNat h
      rw [char_toNat_ofNat_of_valid hv] at h2
      have hy : ('y').toNat = 121 := rfl
      have hY : ('Y').toNat = 89 := rfl
      refine char_toNat_inj ?_
      rw [hY]
      omega
    · rintro (h | h)
      · exfalso
        subst h
        exact absurd hZ (by decide)
      · subst h
        decide
  · rw [if_neg hu]
    constructor
    · exact fun h => Or.inl h
    · rintro (h | h)
      · exact h
      · exfalso
        subst h
        exact hu ⟨by decide, by decide⟩

/-- The reply test of `human_checker` holds exactly when the reply starts
with `y` or `Y`. -/
theorem replyStartsWithYLower_iff (reply : String) :
    replyStartsWithYLower reply = true ↔
      ∃ c cs, reply.data = c :: cs ∧ (c = 'y' ∨ c = 'Y') := by
  unfold replyStartsWithYLower
  cases hd : reply.data with
  | nil => simp
  | cons c cs =>
    rw [decide_eq_true_eq, lower_eq_y_iff]
    constructor
    · intro h
      exact ⟨c, cs, rfl, h⟩
    · rintro ⟨d, ds, hcons, h⟩
      cases hcons
      exact h

/-- Theorem for claim C3: behaviour of `human_checker`.

With `human_checker_on` and not `api_mode` and a fresh prompt key:
the verdict is false exactly when the reply does not start with `y` or
`Y`; on a false verdict (when the database insert succeeds) one row is
appended to `failed_decodes` recording the text and the checker name; on a
true verdict the table is unchanged.  With the checker off or api mode on:
verdict true, the seen-prompts set untouched (no prompt recorded) and no
row written. -/
theorem human_checker_verdict_and_rejection_row (cfg : HcConfig) (reply ts : String)
    (input : CheckResult) (st : HcState) :
    (cfg.human_checker_on = true → cfg.api_mode = false →
      (input.description ++ input.text) ∉ st.seenPrompts →
      (((humanChecker cfg reply true ts input st).1 = false ↔
          ¬∃ c cs, reply.data = c :: cs ∧ (c = 'y' ∨ c = 'Y')) ∧
        ((humanChecker cfg reply true ts input st).1 = false →
          (humanChecker cfg reply true ts input st).2.failedDecodes =
            st.failedDecodes ++
              [⟨st.failedDecodes.length + 1, input.text, input.checker_name, ts⟩]) ∧
        ((humanChecker cfg reply true ts input st).1 = true →
          (humanChecker cfg reply true ts input st).2.failedDecodes = st.failedDecodes))) ∧
    ((cfg.human_checker_on = false ∨ cfg.api_mode = true) →
      (humanChecker cfg reply true ts input st).1 = true ∧
      (humanChecker cfg reply true ts input st).2.seenPrompts = st.seenPrompts ∧
      (humanChecker cfg reply true ts input st).2.failedDecodes = st.failedDecodes) := by
  constructor
  · intro hon hapi hfresh
    cases hy : replyStartsWithYLower reply with
    | true =>
      have hex := (replyStartsWithYLower_iff reply).mp hy
      simp only [humanChecker, hon, hapi, hfresh, hy]
      simp [hex]
      obtain ⟨c, cs, h1, h2⟩ := hex
      exact ⟨c, ⟨cs, h1⟩, fun hne => h2.resolve_left hne⟩
    | false =>
      have hnex : ¬∃ c cs, reply.data = c :: cs ∧ (c = 'y' ∨ c = 'Y') := by
        intro hex
        exact absurd ((replyStartsWithYLower_iff reply).mpr hex) (by simp [hy])
      simp [humanChecker, hon, hapi, hfresh, hy, hnex, insertFailedDecodesTable]
      exact fun x xs hx =>
        ⟨fun h1 => hnex ⟨x, xs, hx, Or.inl h1⟩, fun h1 => hnex ⟨x, xs, hx, Or.inr h1⟩⟩
  · intro h
    rcases h with h | h
    · simp [humanChecker, h]
    · simp [humanChecker, h]

/-- Witness for `human_checker_verdict_and_rejection_row` at a concrete
input: checker on, api mode off, fresh prompt, reply "no". -/
theorem human_checker_verdict_and_rejection_row_witness :
    (humanChecker ⟨true, false⟩ "no" true "ts" sampleCheckResult ⟨[], [], 0, 0⟩).1 = false ∧
    (humanChecker ⟨true, false⟩ "no" true "ts" sampleCheckResult ⟨[], [], 0, 0⟩).2.failedDecodes =
      [⟨1, sampleCheckResult.text, sampleCheckResult.checker_name, "ts"⟩] := by
  have h := (human_checker_verdict_and_rejection_row ⟨true, false⟩ "no" "ts"
    sampleCheckResult ⟨[], [], 0, 0⟩).1 rfl rfl (by simp)
  have hfalse : (humanChecker ⟨true, false⟩ "no" true "ts" sampleCheckResult ⟨[], [], 0, 0⟩).1 = false := by
    refine h.1.mpr ?_
    rintro ⟨c, cs, hcons, hc⟩
    have : c = 'n' := by
      have : ("no" : String).data = ['n', 'o'] := rfl
      rw [this] at hcons
      exact ((List.cons.injEq _ _ _ _ ▸ hcons).1).symm
    rcases hc with h1 | h1 <;> simp [this] at h1
  refine ⟨hfalse, ?_⟩
  have h2 := h.2.1 hfalse
  simpa using h2

/-- Theorem for claim C4: the Brainfuck guard clauses.  For any text with
fewer than twenty characters from `+-<>[]` or fewer than five `.`
characters, `crack` returns no candidate and no success (the guards return
the fresh CrackResult before the interpreter is constructed). -/
theorem brainfuck_crack_rejects_below_length_heuristics
    (checker : String → CheckResult) (text : String)
    (h : strCountP (fun c => "+-<>[]".data.contains c) text < 20 ∨
      strCountP (· = '.') text < 5) :
    (brainfuckCrack checker text).unencrypted_text = none ∧
    (brainfuckCrack checker text).success = false := by
  unfold brainfuckCrack
  by_cases h1 : text.data.contains ',' = true
  · rw [if_pos h1]
    exact ⟨rfl, rfl⟩
  · rw [if_neg h1]
    by_cases h2 : ¬(text.data.getLast? = some '.') ∨ strCountP (· = '.') text < 5
    · rw [if_pos h2]
      exact ⟨rfl, rfl⟩
    · have h3 : strCountP (fun c => "+-<>[]".data.contains c) text < 20 := by
        rcases h with h | h
        · exact h
        · exact absurd (Or.inr h) h2
      rw [if_neg h2, if_pos h3]
      exact ⟨rfl, rfl⟩

/-- Witness for `brainfuck_crack_rejects_below_length_heuristics`: the
repository's own test input "+-<>,.[]" (few instructions, one dot). -/
theorem brainfuck_crack_rejects_below_length_heuristics_witness :
    (brainfuckCrack nullChecker "+-<>,.[]").unencrypted_text = none ∧
    (brainfuckCrack nullChecker "+-<>,.[]").success = false :=
  brainfuck_crack_rejects_below_length_heuristics nullChecker "+-<>,.[]"
    (Or.inl (by decide))

/-- Theorem for claim C8: `insert_cache` and `insert_failed_decodes`
discard the result of the SQL INSERT: whenever the connection opens they
return `Ok(())` — for either value of the execute outcome — and they
return an error exactly when opening the connection fails. -/
theorem insert_ops_discard_execute_result (w : DbWorld) (execOk : Bool)
    (e : CacheEntry) (text : String) (cr : CheckResult) :
    ((∃ conn, getDbConnection w = .ok conn) →
      insertCacheDb w execOk e = .ok () ∧
      insertFailedDecodesDb w execOk text cr = .ok ()) ∧
    (∀ err, getDbConnection w = .error err →
      insertCacheDb w execOk e = .error err ∧
      insertFailedDecodesDb w execOk text cr = .error err) := by
  constructor
  · rintro ⟨conn, hconn⟩
    constructor <;> simp [insertCacheDb, insertFailedDecodesDb, hconn]
  · intro err herr
    constructor <;> simp [insertCacheDb, insertFailedDecodesDb, herr]

/-- Sample cache entry with an empty decoder path. -/
def emptyPathCacheEntry : CacheEntry :=
  ⟨"ZW5jb2RlZA==", "encoded", [], 12⟩

/-- Witness for `insert_ops_discard_execute_result`: with `DB_PATH` never
configured the connection opens in-memory, and both inserts return `Ok`
even with a failing execute. -/
theorem insert_ops_discard_execute_result_witness :
    insertCacheDb ⟨none, fun _ => false⟩ false emptyPathCacheEntry = .ok () ∧
    insertFailedDecodesDb ⟨none, fun _ => false⟩ false "t" sampleCheckResult = .ok () :=
  (insert_ops_discard_execute_result ⟨none, fun _ => false⟩ false
    emptyPathCacheEntry "t" sampleCheckResult).1 ⟨.memory, rfl⟩

/-- Theorem for claim C9: `insert_cache` is total over all CacheEntry
values (path lengths are usize values, hence below `2^64`): it appends
exactly one row whose `successful` column is the `success` flag of the
last CrackResult of the path, and for an empty path the wrapping index
`path.len() - 1` makes `get` return `None`, handled as `successful =
false`. -/
theorem insert_cache_total_and_successful_from_last (tbl : List CacheTableRow)
    (e : CacheEntry) (ts : String) (h : e.path.length < 2 ^ 64) :
    insertCacheTable tbl e ts =
      tbl ++ [⟨tbl.length + 1, e.encoded_text, e.decoded_text,
              encodeJsonStringArray (e.path.map crackResultGetJson),
              ((e.path.getLast?).map (fun r => r.success)).getD false,
              e.execution_time_ms, ts⟩] := by
  simp only [insertCacheTable]
  have hidx : e.path.get? (usizeWrapSub1 e.path.length) = e.path.getLast? := by
    cases hp : e.path with
    | nil => simp [usizeWrapSub1]
    | cons x xs =>
      have hlen : (x :: xs).length ≥ 1 := by simp
      have hsub : usizeWrapSub1 (x :: xs).length = (x :: xs).length - 1 := by
        unfold usizeWrapSub1
        have h2 : (x :: xs).length < 2 ^ 64 := by rw [hp] at h; exact h
        have : (x :: xs).length + (2 ^ 64 - 1) = ((x :: xs).length - 1) + 2 ^ 64 := by
          omega
        rw [this, Nat.add_mod_right, Nat.mod_eq_of_lt (by omega)]
      rw [hsub, List.getLast?_eq_getElem?, List.get?_eq_getElem?]
  rw [hidx]
  cases e.path.getLast? <;> simp

/-- Witness for `insert_cache_total_and_successful_from_last`: inserting
an entry with an empty path into an empty table produces one row with
`successful = false`. -/
theorem insert_cache_total_and_successful_from_last_witness :
    insertCacheTable [] emptyPathCacheEntry "ts" =
      [⟨1, "ZW5jb2RlZA==", "encoded", "[]", false, 12, "ts"⟩] := by
  have h := insert_cache_total_and_successful_from_last [] emptyPathCacheEntry "ts"
    (by decide)
  rw [h]
  rfl

/-- Theorem for claim C10: the Base91 raw decoding step never fails —
`decode_base91_no_error_handling` returns `Some` of the lossy UTF-8
conversion of the decoded bytes for every input — and `crack` yields
`unencrypted_text = None` exactly when `check_string_success` rejects the
decoded string, never because decoding reported an error. -/
theorem base91_decode_never_fails (checker : String → CheckResult) (text : String) :
    decode_base91_no_error_handling text =
      some (String.mk (utf8DecodeLossy (base91SliceDecode text))) ∧
    ((base91Crack checker text).unencrypted_text = none ↔
      check_string_success (String.mk (utf8DecodeLossy (base91SliceDecode text))) text
        = false) := by
  refine ⟨rfl, ?_⟩
  unfold base91Crack decode_base91_no_error_handling
  by_cases hc : check_string_success (String.mk (utf8DecodeLossy (base91SliceDecode text))) text
  · simp [hc, crackResultNew, updateChecker]
  · simp [hc, crackResultNew, updateChecker]

/-- The Brainfuck seed program of spec §8 scenario 5. -/
def brainfuckHelloProgram : String :=
  ">++++++++[<+++++++++>-]<.>++++[<+++++++>-]<+.+++++++..+++.>>++++++[<+++++++>-]<++.------------.>++++++[<+++++++++>-]<+.<.+++.------.--------.>>>++++[<++++++++>-]<+."

/-- The Base65536 seed ciphertext of spec §8 scenario 4. -/
def base65536SphinxCiphertext : String := "𒅓鹨𖡮𒀠啦ꍢ顡啫𓍱𓁡𠁴唬𓍪鱤啥𖥭𔐠𔕯ᔮ"

set_option maxRecDepth 100000 in
/-- Theorem for claim C5: the seed inputs decode as specified, for every
checker (the candidate list of a crack does not depend on the checker
verdict): Base91 on "TPwJh>Io2Tv!lE" yields first candidate
"hello world"; Base65536 on the Sphinx ciphertext yields "Sphinx of black
quartz, judge my vow."; Brainfuck on the Hello-World program yields
"Hello, World!". -/
theorem seed_inputs_decode_as_specified (checker : String → CheckResult) :
    (base91Crack checker "TPwJh>Io2Tv!lE").unencrypted_text = some ["hello world"] ∧
    (base65536Crack checker base65536SphinxCiphertext).unencrypted_text =
      some ["Sphinx of black quartz, judge my vow."] ∧
    (brainfuckCrack checker brainfuckHelloProgram).unencrypted_text =
      some ["Hello, World!"] := by
  refine ⟨rfl, rfl, ?_⟩
  show (brainfuckCrack checker brainfuckHelloProgram).unencrypted_text =
    some ["Hello, World!"]
  rfl

/-- Parsing a JSON string body recovers exactly what was escaped: the
escaped content followed by a closing quote and arbitrary remainder parses
to the content and that remainder, given sufficient fuel. -/
theorem parseJsonStrF_escape (cs : List Char) : ∀ (f : Nat) (rest : List Char),
    (jsonEscape cs).length + 1 ≤ f →
    parseJsonStrF f (jsonEscape cs ++ '"' :: rest) = some (cs, rest) := by
  induction cs with
  | nil =>
    intro f rest hf
    match f, hf with
    | f + 1, _ =>
      simp [jsonEscape, parseJsonStrF]
  | cons c cs ih =>
    intro f rest hf
    by_cases hc : c = '"' ∨ c = '\\'
    · have hesc : jsonEscape (c :: cs) = '\\' :: c :: jsonEscape cs := by
        simp [jsonEscape, jsonEscapeChar, hc]
      rw [hesc] at hf ⊢
      match f, hf with
      | f + 1, hf =>
        have hlen : (jsonEscape cs).length + 1 ≤ f := by
          simp at hf
          omega
        simp [parseJsonStrF, ih f rest hlen]
    · have hesc : jsonEscape (c :: cs) = c :: jsonEscape cs := by
        simp [jsonEscape, jsonEscapeChar, hc]
      rw [hesc] at hf ⊢
      match f, hf with
      | f + 1, hf =>
        have hne1 : ¬c = '\\' := fun h => hc (Or.inr h)
        have hne2 : ¬c = '"' := fun h => hc (Or.inl h)
        have hlen : (jsonEscape cs).length + 1 ≤ f := by
          simp at hf
          omega
        simp [parseJsonStrF, hne1, hne2, ih f rest hlen]

/-- Parsing the items of a serialized non-empty string array recovers the
list, given sufficient fuel. -/
theorem parseJsonItemsF_encode (l : List String) : ∀ (f : Nat), l ≠ [] →
    (encodeJsonItems l).length ≤ f →
    parseJsonItemsF f (encodeJsonItems l) = some (l.map String.data) := by
  induction l with
  | nil =>
    intro f h hf
    exact absurd rfl h
  | cons s rest ih =>
    intro f _ hf
    cases rest with
    | nil =>
      have henc : encodeJsonItems [s] = '"' :: (jsonEscape s.data ++ '"' :: [']']) := rfl
      rw [henc] at hf ⊢
      match f, hf with
      | f + 1, hf =>
        have hstr := parseJsonStrF_escape s.data (jsonEscape s.data ++ '"' :: [']']).length
          [']'] (by simp)
        simp only [parseJsonItemsF]
        rw [hstr]
        simp
    | cons r rs =>
      have henc : encodeJsonItems (s :: r :: rs) =
          '"' :: (jsonEscape s.data ++ '"' :: ',' :: encodeJsonItems (r :: rs)) := rfl
      rw [henc] at hf ⊢
      match f, hf with
      | f + 1, hf =>
        have hstr := parseJsonStrF_escape s.data
          (jsonEscape s.data ++ '"' :: ',' :: encodeJsonItems (r :: rs)).length
          (',' :: encodeJsonItems (r :: rs)) (by simp)
        simp only [parseJsonItemsF]
        rw [hstr]
        have hne : ¬(',' :: encodeJsonItems (r :: rs) = [']']) := by simp
        have hlen : (encodeJsonItems (r :: rs)).length ≤ f := by
          simp at hf
          omega
        simp only [hne, if_false, if_pos rfl, reduceIte]
        rw [ih f (by simp) hlen]
        simp

/-- Round trip of the JSON string-array codec: parsing a serialized list
of strings recovers the list. -/
theorem decodeJsonStringArray_encode (l : List String) :
    decodeJsonStringArray (encodeJsonStringArray l) = some l := by
  cases l with
  | nil => rfl
  | cons s rest =>
    have hdata : (encodeJsonStringArray (s :: rest)).data =
        '[' :: encodeJsonItems (s :: rest) := rfl
    unfold decodeJsonStringArray
    rw [hdata]
    have hne : ¬encodeJsonItems (s :: rest) = [']'] := by
      cases rest <;> simp [encodeJsonItems]
    simp only [hne, if_false]
    rw [parseJsonItemsF_encode (s :: rest) (encodeJsonItems (s :: rest)).length
      (by simp) (by omega)]
    have hcomp : String.mk ∘ String.data = id := funext fun x => rfl
    simp [List.map_map, hcomp]

/-- First sample entry for the cache: encoded text "x" decoding to "a". -/
def cacheEntryXa : CacheEntry :=
  ⟨"x", "a", [⟨"MockEncoding", "x", some ["a"], true, "Athena", ""⟩], 5⟩

/-- Second sample entry for the cache: the same encoded text "x", decoding
to "b". -/
def cacheEntryXb : CacheEntry :=
  ⟨"x", "b", [⟨"MockEncoding", "x", some ["b"], true, "Athena", ""⟩], 7⟩

/-- Counterexample for claim C6 as stated: after `insert_cache(e)` for
`e = cacheEntryXb` succeeds (the row is appended), `read_cache("x")` does
not return a row with `e`'s fields — an earlier row with the same encoded
text wins, and its `decoded_text` is "a" while `e.decoded_text` is "b". -/
theorem read_cache_returns_earlier_row_not_inserted_entry :
    (readCacheTable (insertCacheTable (insertCacheTable [] cacheEntryXa "t1")
        cacheEntryXb "t2") cacheEntryXb.encoded_text).map
      (fun r => r.decoded_text) = some "a" ∧
    cacheEntryXb.decoded_text = "b" := by
  constructor
  · rfl
  · rfl

/-- Predicate: row ids strictly increase along the table, as they do for
tables built by appending autoincremented rows. -/
def idsStrictMono (tbl : List CacheTableRow) : Prop :=
  tbl.Pairwise (fun a b => a.id < b.id)

/-- Finding in an appended table with no match in the prefix yields the
appended element when it matches. -/
theorem find?_append_singleton {α : Type} (p : α → Bool) (l : List α) (x : α)
    (h : ∀ a ∈ l, p a = false) (hx : p x = true) :
    (l ++ [x]).find? p = some x := by
  induction l with
  | nil => simp [List.find?, hx]
  | cons a as ih =>
    rw [List.cons_append, List.find?_cons_of_neg _ (by simp [h a (List.mem_cons_self a as)])]
    exact ih (fun b hb => h b (List.mem_cons_of_mem a hb))

/-- The first match found in a list whose measure is strictly increasing
has the least measure among all matches. -/
theorem find?_first_has_min_measure {α : Type} (f : α → Nat) (p : α → Bool) :
    ∀ (l : List α) (x : α), l.Pairwise (fun a b => f a < f b) →
    l.find? p = some x → p x = true ∧ ∀ a ∈ l, p a = true → f x ≤ f a := by
  intro l
  induction l with
  | nil => intro x _ h; simp at h
  | cons a as ih =>
    intro x hmono h
    by_cases hpa : p a = true
    · rw [List.find?_cons_of_pos _ hpa] at h
      have hx : x = a := (Option.some.inj h).symm
      subst hx
      refine ⟨hpa, ?_⟩
      intro b hb _
      rcases List.mem_cons.mp hb with hb | hb
      · subst hb; exact Nat.le_refl _
      · exact Nat.le_of_lt ((List.pairwise_cons.mp hmono).1 b hb)
    · rw [List.find?_cons_of_neg _ (by simpa using hpa)] at h
      have ih2 := ih x (List.pairwise_cons.mp hmono).2 h
      refine ⟨ih2.1, ?_⟩
      intro b hb hpb
      rcases List.mem_cons.mp hb with hb | hb
      · subst hb; exact absurd hpb hpa
      · exact ih2.2 b hb hpb

/-- Theorem for claim C6 as amended: `read_cache` returns the
earliest-inserted (lowest-id) row matching the encoded text; in
particular, after `insert_cache(e)` on a table with no row for
`e.encoded_text`, it returns the new row, whose `encoded_text`,
`decoded_text` and `execution_time_ms` equal those of `e` and whose
`path` is the JSON serialization of `e`'s CrackResults. -/
theorem read_cache_first_match_round_trip :
    (∀ (tbl : List CacheTableRow) (e : CacheEntry) (ts : String),
      (∀ r ∈ tbl, r.encoded_text ≠ e.encoded_text) →
      ∃ row, readCacheTable (insertCacheTable tbl e ts) e.encoded_text = some row ∧
        row.encoded_text = e.encoded_text ∧
        row.decoded_text = e.decoded_text ∧
        row.execution_time_ms = e.execution_time_ms ∧
        row.path = e.path.map crackResultGetJson ∧
        row.timestamp = ts) ∧
    (∀ (tbl : List CacheTableRow) (key : String) (row : CacheRow),
      idsStrictMono tbl →
      readCacheTable tbl key = some row →
      row.encoded_text = key ∧
        ∀ r ∈ tbl, r.encoded_text = key → row.id ≤ r.id) := by
  constructor
  · intro tbl e ts hfresh
    have hfind : (insertCacheTable tbl e ts).find?
        (fun r => r.encoded_text = e.encoded_text) =
        some ⟨tbl.length + 1, e.encoded_text, e.decoded_text,
          encodeJsonStringArray (e.path.map crackResultGetJson),
          (match e.path.get? (usizeWrapSub1 e.path.length) with
            | some crack_result => crack_result.success
            | none => false),
          e.execution_time_ms, ts⟩ := by
      apply find?_append_singleton
      · intro a ha
        simp [hfresh a ha]
      · simp
    have hres : readCacheTable (insertCacheTable tbl e ts) e.encoded_text =
        some ⟨tbl.length + 1, e.encoded_text, e.decoded_text,
          (decodeJsonStringArray (encodeJsonStringArray
            (e.path.map crackResultGetJson))).getD [],
          (match e.path.get? (usizeWrapSub1 e.path.length) with
            | some crack_result => crack_result.success
            | none => false),
          e.execution_time_ms, ts⟩ := by
      unfold readCacheTable
      rw [hfind]
      rfl
    refine ⟨_, hres, rfl, rfl, rfl, ?_, rfl⟩
    simp only
    rw [decodeJsonStringArray_encode]
    rfl
  · intro tbl key row hmono hread
    unfold readCacheTable at hread
    rcases Option.map_eq_some'.mp hread with ⟨r0, hfind, hrow⟩
    have hmono2 : tbl.Pairwise (fun a b => a.id < b.id) := hmono
    have hmin := find?_first_has_min_measure (fun (r : CacheTableRow) => r.id)
      (fun r => decide (r.encoded_text = key)) tbl r0 hmono2 hfind
    constructor
    · rw [← hrow]
      simpa using hmin.1
    · intro r2 hr2 hkey
      rw [← hrow]
      exact hmin.2 r2 hr2 (by simp [hkey])

/-- Witness for `read_cache_first_match_round_trip` at concrete inputs:
part one applied to an empty table and `cacheEntryXa`; part two applied to
the resulting singleton table and its row. -/
theorem read_cache_first_match_round_trip_witness :
    (∃ row, readCacheTable (insertCacheTable [] cacheEntryXa "t1")
        cacheEntryXa.encoded_text = some row ∧
      row.encoded_text = cacheEntryXa.encoded_text ∧
      row.decoded_text = cacheEntryXa.decoded_text ∧
      row.execution_time_ms = cacheEntryXa.execution_time_ms ∧
      row.path = cacheEntryXa.path.map crackResultGetJson ∧
      row.timestamp = "t1") ∧
    ((⟨1, "x", "a", ["[\"MockEncoding\",\"x\",\"true\",\"Athena\",\"\",\"a\"]"],
        true, 5, "t1"⟩ : CacheRow).encoded_text = "x" ∧
      ∀ r ∈ insertCacheTable [] cacheEntryXa "t1", r.encoded_text = "x" →
        (1 : Nat) ≤ r.id) := by
  constructor
  · exact read_cache_first_match_round_trip.1 [] cacheEntryXa "t1" (by simp)
  · exact read_cache_first_match_round_trip.2 (insertCacheTable [] cacheEntryXa "t1")
      "x" ⟨1, "x", "a", ["[\"MockEncoding\",\"x\",\"true\",\"Athena\",\"\",\"a\"]"],
        true, 5, "t1"⟩
      (by simp [idsStrictMono, insertCacheTable]) (by rfl)

/-- World in which a database path is configured but cannot be opened. -/
def unwritablePathWorld : DbWorld :=
  ⟨some (some "/root/Ares/database.sqlite"), fun _ => false⟩

/-- Counterexample for claim C7 as stated: with a configured but
unwritable path, no knowledge-store operation falls back to an in-memory
database — every one returns the connection error; and even in the
never-configured world, where the connection genuinely is in-memory, the
two reads do not operate without error: the fresh in-memory database has
no schema, so they return the "no such table" prepare error. -/
theorem no_in_memory_fallback_on_unwritable_path :
    insertCacheDb unwritablePathWorld true emptyPathCacheEntry =
      .error .openFailed ∧
    insertFailedDecodesDb unwritablePathWorld true "t" sampleCheckResult =
      .error .openFailed ∧
    readCacheDb unwritablePathWorld (fun _ => some []) "x" = .error .openFailed ∧
    readFailedDecodesDb unwritablePathWorld (fun _ => some []) "x" =
      .error .openFailed ∧
    getDbConnection unwritablePathWorld = .error .openFailed ∧
    readCacheDb ⟨none, fun _ => true⟩ (fun _ => some []) "x" =
      .error .noSuchTable ∧
    readFailedDecodesDb ⟨none, fun _ => true⟩ (fun _ => some []) "x" =
      .error .noSuchTable := by
  exact ⟨rfl, rfl, rfl, rfl, rfl, rfl, rfl⟩

/-- Theorem for claim C7 as amended: when no database path has been
configured (the `DB_PATH` once-lock unset, or set holding no path),
`get_db_connection` opens a fresh in-memory database; against it the two
inserts return `Ok(())` — their failed `execute` result is discarded —
while the two reads fail at `conn.prepare` with "no such table", the
fresh database having no schema.  When a configured path fails to open,
every operation returns the connection error instead of falling back. -/
theorem knowledge_store_unconfigured_in_memory_behavior (w : DbWorld) (execOk : Bool)
    (e : CacheEntry) (text key : String) (cr : CheckResult)
    (cacheTables : String → Option (List CacheTableRow))
    (failedTables : String → Option (List FailedDecodesRow)) :
    (w.dbPath = none ∨ w.dbPath = some none →
      getDbConnection w = .ok .memory ∧
      insertCacheDb w execOk e = .ok () ∧
      insertFailedDecodesDb w execOk text cr = .ok () ∧
      readCacheDb w cacheTables key = .error .noSuchTable ∧
      readFailedDecodesDb w failedTables key = .error .noSuchTable) ∧
    (∀ p, w.dbPath = some (some p) → w.openOk p = false →
      insertCacheDb w execOk e = .error .openFailed ∧
      insertFailedDecodesDb w execOk text cr = .error .openFailed ∧
      readCacheDb w cacheTables key = .error .openFailed ∧
      readFailedDecodesDb w failedTables key = .error .openFailed) := by
  constructor
  · intro h
    have hconn : getDbConnection w = .ok .memory := by
      rcases h with h | h <;> simp [getDbConnection, h]
    exact ⟨hconn, by simp [insertCacheDb, hconn], by simp [insertFailedDecodesDb, hconn],
      by simp [readCacheDb, hconn, connTables],
      by simp [readFailedDecodesDb, hconn, connTables]⟩
  · intro p hp hopen
    have hconn : getDbConnection w = .error .openFailed := by
      simp [getDbConnection, hp, hopen]
    exact ⟨by simp [insertCacheDb, hconn], by simp [insertFailedDecodesDb, hconn],
      by simp [readCacheDb, hconn], by simp [readFailedDecodesDb, hconn]⟩

/-- Witness for `knowledge_store_unconfigured_in_memory_behavior`: the
world with `DB_PATH` never configured, and the unwritable-path world. -/
theorem knowledge_store_unconfigured_in_memory_behavior_witness :
    (getDbConnection ⟨none, fun _ => true⟩ = .ok .memory ∧
      insertCacheDb ⟨none, fun _ => true⟩ true emptyPathCacheEntry = .ok () ∧
      insertFailedDecodesDb ⟨none, fun _ => true⟩ true "t" sampleCheckResult = .ok () ∧
      readCacheDb ⟨none, fun _ => true⟩ (fun _ => some []) "x" =
        .error .noSuchTable ∧
      readFailedDecodesDb ⟨none, fun _ => true⟩ (fun _ => some []) "x" =
        .error .noSuchTable) ∧
    insertCacheDb unwritablePathWorld true emptyPathCacheEntry = .error .openFailed := by
  constructor
  · exact (knowledge_store_unconfigured_in_memory_behavior ⟨none, fun _ => true⟩ true
      emptyPathCacheEntry "t" "x" sampleCheckResult (fun _ => some [])
      (fun _ => some [])).1 (Or.inl rfl)
  · exact ((knowledge_store_unconfigured_in_memory_behavior unwritablePathWorld true
      emptyPathCacheEntry "t" "x" sampleCheckResult (fun _ => some [])
      (fun _ => some [])).2 "/root/Ares/database.sqlite" rfl rfl).1

/-- Rejection by `check_string_success` whenever the decoded string is
empty or equals the input. -/
theorem check_string_success_false_of_trivial (s text : String)
    (h : s = "" ∨ s = text) : check_string_success s text = false := by
  simp [check_string_success]
  intro h1
  rcases h with h | h
  · exact absurd h h1
  · exact h

/-- Theorem for claim C1 as amended: the trivial-reject contract of
`check_string_success` holds for the Base32, Base91 and Base65536
decoders: whenever the decoding step produces a string that is empty or
equal to the input, `crack` returns a CrackResult with `unencrypted_text =
None` and `success = false`.  (The Brainfuck decoder does not apply this
contract; see the counterexample for the claim.) -/
theorem base_decoders_reject_trivial_decodes (checker : String → CheckResult)
    (text s : String) (h : s = "" ∨ s = text) :
    (decode_base32_no_error_handling text = some s →
      (base32Crack checker text).unencrypted_text = none ∧
      (base32Crack checker text).success = false) ∧
    (decode_base91_no_error_handling text = some s →
      (base91Crack checker text).unencrypted_text = none ∧
      (base91Crack checker text).success = false) ∧
    (decode_base65536_no_error_handling text = some s →
      (base65536Crack checker text).unencrypted_text = none ∧
      (base65536Crack checker text).success = false) := by
  have hcheck := check_string_success_false_of_trivial s text h
  refine ⟨?_, ?_, ?_⟩
  · intro hdec
    unfold base32Crack
    rw [hdec]
    simp [hcheck, crackResultNew]
  · intro hdec
    unfold base91Crack
    rw [hdec]
    simp [hcheck, crackResultNew]
  · intro hdec
    unfold base65536Crack
    rw [hdec]
    simp [hcheck, crackResultNew]

/-- Witness for `base_decoders_reject_trivial_decodes`: the empty input,
whose decoding step yields the empty string for all three decoders. -/
theorem base_decoders_reject_trivial_decodes_witness :
    (base32Crack nullChecker "").unencrypted_text = none ∧
    (base32Crack nullChecker "").success = false ∧
    (base91Crack nullChecker "").unencrypted_text = none ∧
    (base91Crack nullChecker "").success = false ∧
    (base65536Crack nullChecker "").unencrypted_text = none ∧
    (base65536Crack nullChecker "").success = false := by
  have h := base_decoders_reject_trivial_decodes nullChecker "" "" (Or.inl rfl)
  have h32 := h.1 (by rfl)
  have h91 := h.2.1 (by rfl)
  have h65536 := h.2.2 (by rfl)
  exact ⟨h32.1, h32.2, h91.1, h91.2, h65536.1, h65536.2⟩

/-- Printer part of a self-printing Brainfuck program: code that first
prints the data section that encodes this very code (one cell per
character, with two scratch cells after each data cell), then prints the
characters themselves.  Structure: return to the first data cell;
a loop printing, for each data cell c, the text "+"*c followed by ">>>";
the tail printing ">" and 46 "+" for the final cell; a second return; a
loop printing each data cell as its character; and a final ">." printing
the last character, the dot, stored beside the loop-exit marker. -/
def bfQuineC : String :=
  "<<<<[<<<]>>>[[->+<]>>+++++++++++++++++++++++++++++++++++++++++++<[-<+>>.<]>[-]++++++++++++++++++++++++++++++++++++++++++++++++++++++++++++++...[-]>]++++++++++++++++++++++++++++++++++++++++++++++++++++++++++++++.[-]+++++++++++++++++++++++++++++++++++++++++++..............................................[-]<<<[<<<]>>>[.>>>]>."

/-- Cell values of the data section: the code points of every character
of the printer except the final dot. -/
def bfQuineCodes : List Nat :=
  bfQuineC.data.dropLast.map Char.toNat

/-- One block of the data section: c plus signs writing the cell, three
right moves skipping the scratch cells. -/
def encodeDBlock (c : Nat) : List Char :=
  List.replicate c '+' ++ ['>', '>', '>']

/-- Text of the data section for the given cell values, ending with one
right move and the 46 plus signs of the final dot cell. -/
def encodeDChars : List Nat → List Char
  | [] => '>' :: List.replicate 46 '+'
  | c :: cs => encodeDBlock c ++ encodeDChars cs

/-- The complete self-printing Brainfuck program: data section followed
by the printer. -/
def bfQuineProgram : String :=
  String.mk (encodeDChars bfQuineCodes ++ bfQuineC.data)

/-- Big-step execution relation for the Brainfuck machine, indexed by a
cost that bounds the fuel `bfRun` needs: `RunTo n p s t` holds when
running the instruction sequence `p` from state `s` terminates in state
`t`, and `bfRun f p s = some t` for every `f ≥ n + 1`
(`bfRun_of_runTo`). -/
inductive RunTo : Nat → List BfInstr → BfState → BfState → Prop where
  | nil (s : BfState) : RunTo 0 [] s s
  | inc {n : Nat} {r : List BfInstr} {s t : BfState}
      (h : RunTo n r { s with cur := (s.cur + 1) % 256 } t) :
      RunTo (n + 1) (.inc :: r) s t
  | dec {n : Nat} {r : List BfInstr} {s t : BfState}
      (h : RunTo n r { s with cur := (s.cur + 255) % 256 } t) :
      RunTo (n + 1) (.dec :: r) s t
  | movl {n : Nat} {r : List BfInstr} {s t : BfState}
      (h : RunTo n r (bfMoveL s) t) :
      RunTo (n + 1) (.movl :: r) s t
  | movr {n : Nat} {r : List BfInstr} {s t : BfState}
      (h : RunTo n r (bfMoveR s) t) :
      RunTo (n + 1) (.movr :: r) s t
  | out {n : Nat} {r : List BfInstr} {s t : BfState}
      (h : RunTo n r { s with outRev := s.cur :: s.outRev } t) :
      RunTo (n + 1) (.out :: r) s t
  | loopSkip {n : Nat} {b r : List BfInstr} {s t : BfState}
      (hz : s.cur = 0) (h : RunTo n r s t) :
      RunTo (n + 1) (.loop b :: r) s t
  | loopIter {n m : Nat} {b r : List BfInstr} {s u t : BfState}
      (hnz : s.cur ≠ 0) (hbody : RunTo n b s u)
      (hcont : RunTo m (.loop b :: r) u t) :
      RunTo (n + m + 1) (.loop b :: r) s t

/-- Cost cast for `RunTo`. -/
theorem RunTo.cast {n n' : Nat} {p : List BfInstr} {s t : BfState}
    (h : RunTo n p s t) (e : n = n') : RunTo n' p s t := e ▸ h

/-- Bridge from the big-step relation to the fueled interpreter: any fuel
beyond the cost produces the same final state. -/
theorem bfRun_of_runTo {n : Nat} {p : List BfInstr} {s t : BfState}
    (h : RunTo n p s t) : ∀ f, n + 1 ≤ f → bfRun f p s = some t := by
  induction h with
  | nil s =>
    intro f hf
    match f, hf with
    | f + 1, _ => rfl
  | inc h ih =>
    intro f hf
    match f, hf with
    | f + 1, hf => exact ih f (by omega)
  | dec h ih =>
    intro f hf
    match f, hf with
    | f + 1, hf => exact ih f (by omega)
  | movl h ih =>
    intro f hf
    match f, hf with
    | f + 1, hf => exact ih f (by omega)
  | movr h ih =>
    intro f hf
    match f, hf with
    | f + 1, hf => exact ih f (by omega)
  | out h ih =>
    intro f hf
    match f, hf with
    | f + 1, hf => exact ih f (by omega)
  | loopSkip hz h ih =>
    intro f hf
    match f, hf with
    | f + 1, hf =>
      show bfRun (f + 1) (.loop _ :: _) _ = _
      rw [bfRun, if_pos hz]
      exact ih f (by omega)
  | loopIter hnz hbody hcont ihbody ihcont =>
    intro f hf
    match f, hf with
    | f + 1, hf =>
      show bfRun (f + 1) (.loop _ :: _) _ = _
      rw [bfRun, if_neg hnz, ihbody f (by omega)]
      exact ihcont f (by omega)

/-- Sequential composition of big-step runs. -/
theorem RunTo.seq {n : Nat} {a : List BfInstr} {s u : BfState}
    (h1 : RunTo n a s u) : ∀ {m : Nat} {b : List BfInstr} {t : BfState},
    RunTo m b u t → RunTo (n + m) (a ++ b) s t := by
  induction h1 with
  | nil s => intro m b t h2; simpa using h2
  | inc h ih => intro m b t h2; exact (RunTo.inc (ih h2)).cast (by omega)
  | dec h ih => intro m b t h2; exact (RunTo.dec (ih h2)).cast (by omega)
  | movl h ih => intro m b t h2; exact (RunTo.movl (ih h2)).cast (by omega)
  | movr h ih => intro m b t h2; exact (RunTo.movr (ih h2)).cast (by omega)
  | out h ih => intro m b t h2; exact (RunTo.out (ih h2)).cast (by omega)
  | loopSkip hz h ih =>
    intro m b t h2
    exact (RunTo.loopSkip hz (ih h2)).cast (by omega)
  | loopIter hnz hbody hcont ihbody ihcont =>
    intro m b t h2
    exact (RunTo.loopIter hnz hbody (ihcont h2)).cast (by omega)

/-- Increment step with the wrapped cell value given explicitly. -/
theorem RunTo.inc_of {n : Nat} {r : List BfInstr} {s t : BfState} (c' : Nat)
    (h : (s.cur + 1) % 256 = c') (hrun : RunTo n r { s with cur := c' } t) :
    RunTo (n + 1) (.inc :: r) s t := by
  rw [← h] at hrun
  exact RunTo.inc hrun

/-- Decrement step with the wrapped cell value given explicitly. -/
theorem RunTo.dec_of {n : Nat} {r : List BfInstr} {s t : BfState} (c' : Nat)
    (h : (s.cur + 255) % 256 = c') (hrun : RunTo n r { s with cur := c' } t) :
    RunTo (n + 1) (.dec :: r) s t := by
  rw [← h] at hrun
  exact RunTo.dec hrun

/-- Running a block of `k` plus signs adds `k` to the current cell
(staying below 256). -/
theorem runReplicateInc (k : Nat) : ∀ (c : Nat) (L R X : List Nat), c + k < 256 →
    RunTo k (List.replicate k .inc) ⟨L, c, R, X⟩ ⟨L, c + k, R, X⟩ := by
  induction k with
  | zero =>
    intro c L R X hc
    exact RunTo.nil _
  | succ k ih =>
    intro c L R X hc
    rw [List.replicate_succ]
    refine RunTo.inc_of (c + 1) (by show (c + 1) % 256 = c + 1; omega) ?_
    have h2 := ih (c + 1) L R X (by omega)
    rw [show c + 1 + k = c + (k + 1) from by omega] at h2
    exact h2

/-- The copy loop `[->+<]`: moves the current cell into the next cell to
the right (which accumulates), leaving zero behind. -/
theorem runCopyLoop : ∀ (c : Nat), ∀ (s1 : Nat) (L R X : List Nat), c + s1 < 256 →
    RunTo (5 * c + 1) [.loop [.dec, .movr, .inc, .movl]] ⟨L, c, s1 :: R, X⟩
      ⟨L, 0, (s1 + c) :: R, X⟩ := by
  intro c
  induction c with
  | zero =>
    intro s1 L R X h
    exact (RunTo.loopSkip rfl (RunTo.nil _)).cast (by omega)
  | succ c ih =>
    intro s1 L R X h
    have hbody : RunTo 4 [.dec, .movr, .inc, .movl]
        ⟨L, c + 1, s1 :: R, X⟩ ⟨L, c, (s1 + 1) :: R, X⟩ := by
      refine RunTo.dec_of c (by show (c + 1 + 255) % 256 = c; omega) ?_
      refine RunTo.movr ?_
      refine RunTo.inc_of (s1 + 1) (by show (s1 + 1) % 256 = s1 + 1; omega) ?_
      refine RunTo.movl ?_
      exact RunTo.nil _
    have hcont := ih (s1 + 1) L R X (by omega)
    rw [show s1 + 1 + c = s1 + (c + 1) from by omega] at hcont
    have := RunTo.loopIter (show (⟨L, c + 1, s1 :: R, X⟩ : BfState).cur ≠ 0 from by
      show c + 1 ≠ 0; omega) hbody hcont
    exact this.cast (by omega)

/-- The print loop `[-<+>>.<]`: prints the constant cell to the right
`k` times while moving the counter into the cell on the left. -/
theorem runPrintLoop : ∀ (k : Nat), ∀ (d s2 : Nat) (L R X : List Nat), k + d < 256 →
    RunTo (8 * k + 1) [.loop [.dec, .movl, .inc, .movr, .movr, .out, .movl]]
      ⟨d :: L, k, s2 :: R, X⟩ ⟨(d + k) :: L, 0, s2 :: R, List.replicate k s2 ++ X⟩ := by
  intro k
  induction k with
  | zero =>
    intro d s2 L R X h
    exact (RunTo.loopSkip rfl (RunTo.nil _)).cast (by omega)
  | succ k ih =>
    intro d s2 L R X h
    have hbody : RunTo 7 [.dec, .movl, .inc, .movr, .movr, .out, .movl]
        ⟨d :: L, k + 1, s2 :: R, X⟩ ⟨(d + 1) :: L, k, s2 :: R, s2 :: X⟩ := by
      refine RunTo.dec_of k (by show (k + 1 + 255) % 256 = k; omega) ?_
      refine RunTo.movl ?_
      refine RunTo.inc_of (d + 1) (by show (d + 1) % 256 = d + 1; omega) ?_
      refine RunTo.movr ?_
      refine RunTo.movr ?_
      refine RunTo.out ?_
      refine RunTo.movl ?_
      exact RunTo.nil _
    have hcont := ih (d + 1) s2 L R (s2 :: X) (by omega)
    rw [show d + 1 + k = d + (k + 1) from by omega] at hcont
    rw [show List.replicate k s2 ++ s2 :: X = List.replicate (k + 1) s2 ++ X from by
      rw [List.replicate_succ', List.append_assoc]; rfl] at hcont
    have := RunTo.loopIter (show (⟨d :: L, k + 1, s2 :: R, X⟩ : BfState).cur ≠ 0 from by
      show k + 1 ≠ 0; omega) hbody hcont
    exact this.cast (by omega)

/-- The clear loop `[-]`: zeroes the current cell. -/
theorem runClearLoop : ∀ (c : Nat), ∀ (L R X : List Nat), c < 256 →
    RunTo (2 * c + 1) [.loop [.dec]] ⟨L, c, R, X⟩ ⟨L, 0, R, X⟩ := by
  intro c
  induction c with
  | zero =>
    intro L R X h
    exact (RunTo.loopSkip rfl (RunTo.nil _)).cast (by omega)
  | succ c ih =>
    intro L R X h
    have hbody : RunTo 1 [.dec] ⟨L, c + 1, R, X⟩ ⟨L, c, R, X⟩ := by
      refine RunTo.dec_of c (by show (c + 1 + 255) % 256 = c; omega) ?_
      exact RunTo.nil _
    have := RunTo.loopIter (show (⟨L, c + 1, R, X⟩ : BfState).cur ≠ 0 from by
      show c + 1 ≠ 0; omega) hbody (ih L R X (by omega))
    exact this.cast (by omega)

/-- Tape segment of data cells in list order: two scratch zeros before
each value. -/
def tripleTape : List Nat → List Nat
  | [] => []
  | c :: cs => 0 :: 0 :: c :: tripleTape cs

/-- Tape segment of data cells as seen to the right of a data cell: each
value followed by its two scratch zeros. -/
def rightData : List Nat → List Nat
  | [] => []
  | c :: cs => c :: 0 :: 0 :: rightData cs

/-- Left tape accumulated by writing the data cells in order (most recent
nearest). -/
def tapeD (codes : List Nat) (L : List Nat) : List Nat :=
  codes.foldl (fun acc c => 0 :: 0 :: c :: acc) L

/-- Abstract syntax of one data block: the plus signs and the three right
moves. -/
def astDBlock (c : Nat) : List BfInstr :=
  List.replicate c .inc ++ [.movr, .movr, .movr]

/-- Abstract syntax of the data section. -/
def astD : List Nat → List BfInstr
  | [] => .movr :: List.replicate 46 .inc
  | c :: cs => astDBlock c ++ astD cs

/-- Cost of running the data section. -/
def dCost : List Nat → Nat
  | [] => 47
  | c :: cs => (c + 3) + dCost cs

/-- Unfolding of `tapeD` on a cons. -/
theorem tapeD_cons (c : Nat) (cs : List Nat) (L : List Nat) :
    tapeD (c :: cs) L = tapeD cs (0 :: 0 :: c :: L) := by
  simp [tapeD]

/-- `tripleTape` distributes over append. -/
theorem tripleTape_append (a b : List Nat) :
    tripleTape (a ++ b) = tripleTape a ++ tripleTape b := by
  induction a with
  | nil => simp [tripleTape]
  | cons c cs ih => simp [tripleTape, ih]

/-- The accumulated left tape is the reversed triple tape. -/
theorem tapeD_eq_tripleTape : ∀ (codes : List Nat) (L : List Nat),
    tapeD codes L = tripleTape codes.reverse ++ L := by
  intro codes
  induction codes with
  | nil => intro L; simp [tapeD, tripleTape]
  | cons c cs ih =>
    intro L
    rw [tapeD_cons, ih, List.reverse_cons, tripleTape_append]
    simp [tripleTape]

/-- Regrouping a triple tape followed by two zeros as two zeros followed
by the right-of-data view. -/
theorem tripleTape_shift (cs : List Nat) (R : List Nat) :
    tripleTape cs ++ 0 :: 0 :: R = 0 :: 0 :: (rightData cs ++ R) := by
  induction cs with
  | nil => simp [tripleTape, rightData]
  | cons c cs ih => simp [tripleTape, rightData, ih]

/-- Execution of the data section: from a zero cell with untouched tape
to the right, writes every data cell (leaving the pointer on the final
46 cell, the code of the dot). -/
theorem runD : ∀ (codes : List Nat), (∀ c ∈ codes, c < 256) → ∀ (L X : List Nat),
    RunTo (dCost codes) (astD codes) ⟨L, 0, [], X⟩ ⟨0 :: tapeD codes L, 46, [], X⟩ := by
  intro codes
  induction codes with
  | nil =>
    intro _ L X
    show RunTo 47 (.movr :: List.replicate 46 .inc) _ _
    refine RunTo.movr ?_
    show RunTo 46 (List.replicate 46 .inc) ⟨0 :: L, 0, [], X⟩ _
    have h := runReplicateInc 46 0 (0 :: L) [] X (by omega)
    rw [show (0 : Nat) + 46 = 46 from by omega] at h
    exact (h.cast rfl : RunTo 46 _ _ ⟨0 :: tapeD [] L, 46, [], X⟩)
  | cons c cs ih =>
    intro hlt L X
    have hc : c < 256 := hlt c (List.mem_cons_self c cs)
    have hblock : RunTo (c + 3) (astDBlock c) ⟨L, 0, [], X⟩ ⟨0 :: 0 :: c :: L, 0, [], X⟩ := by
      unfold astDBlock
      have h1 := runReplicateInc c 0 L [] X (by omega)
      rw [show (0 : Nat) + c = c from by omega] at h1
      have h2 : RunTo 3 [.movr, .movr, .movr] ⟨L, c, [], X⟩ ⟨0 :: 0 :: c :: L, 0, [], X⟩ :=
        RunTo.movr (RunTo.movr (RunTo.movr (RunTo.nil _)))
      exact (h1.seq h2).cast rfl
    have hrest := ih (fun d hd => hlt d (List.mem_cons_of_mem c hd)) (0 :: 0 :: c :: L) X
    rw [← tapeD_cons] at hrest
    show RunTo (dCost (c :: cs)) (astDBlock c ++ astD cs) _ _
    exact (hblock.seq hrest).cast (by simp [dCost])

/-- The leftward walk `[<<<]` over a triple tape: steps three cells at a
time through nonzero data cells (with either empty tape or three zero
cells beyond), ending on the zero cell three left of the first data cell,
having pushed the walked cells onto the right. -/
theorem runWalkLeft : ∀ (rs : List Nat), (∀ d ∈ rs, d ≠ 0) →
    ∀ (Lend : List Nat), (Lend = [] ∨ Lend = [0, 0, 0]) →
    ∀ (c : Nat), c ≠ 0 → ∀ (R X : List Nat),
    RunTo (4 * rs.length + 5) [.loop [.movl, .movl, .movl]]
      ⟨tripleTape rs ++ Lend, c, R, X⟩ ⟨[], 0, tripleTape (rs.reverse ++ [c]) ++ R, X⟩ := by
  intro rs
  induction rs with
  | nil =>
    intro _ Lend hLend c hc R X
    have hbody : RunTo 3 [.movl, .movl, .movl] ⟨tripleTape [] ++ Lend, c, R, X⟩
        ⟨[], 0, 0 :: 0 :: c :: R, X⟩ := by
      rcases hLend with h | h <;> subst h
      · exact RunTo.movl (RunTo.movl (RunTo.movl (RunTo.nil _)))
      · exact RunTo.movl (RunTo.movl (RunTo.movl (RunTo.nil _)))
    have hcont : RunTo 1 [.loop [.movl, .movl, .movl]] ⟨[], 0, 0 :: 0 :: c :: R, X⟩
        ⟨[], 0, 0 :: 0 :: c :: R, X⟩ := RunTo.loopSkip rfl (RunTo.nil _)
    have := RunTo.loopIter (show (⟨tripleTape [] ++ Lend, c, R, X⟩ : BfState).cur ≠ 0 from hc)
      hbody hcont
    exact this.cast (by simp)
  | cons d rs2 ih =>
    intro hnz Lend hLend c hc R X
    have hbody : RunTo 3 [.movl, .movl, .movl]
        ⟨tripleTape (d :: rs2) ++ Lend, c, R, X⟩
        ⟨tripleTape rs2 ++ Lend, d, 0 :: 0 :: c :: R, X⟩ := by
      show RunTo 3 _ ⟨0 :: 0 :: d :: (tripleTape rs2 ++ Lend), c, R, X⟩ _
      exact RunTo.movl (RunTo.movl (RunTo.movl (RunTo.nil _)))
    have hcont := ih (fun e he => hnz e (List.mem_cons_of_mem d he)) Lend hLend d
      (hnz d (List.mem_cons_self d rs2)) (0 :: 0 :: c :: R) X
    have hre : tripleTape (rs2.reverse ++ [d]) ++ 0 :: 0 :: c :: R =
        tripleTape ((d :: rs2).reverse ++ [c]) ++ R := by
      rw [List.reverse_cons, List.append_assoc, tripleTape_append, tripleTape_append,
        tripleTape_append]
      simp [tripleTape]
    rw [hre] at hcont
    have := RunTo.loopIter
      (show (⟨tripleTape (d :: rs2) ++ Lend, c, R, X⟩ : BfState).cur ≠ 0 from hc)
      hbody hcont
    exact this.cast (by simp; omega)

/-- Output of one printer-loop block, most recent first: the three `>`
code points over the `c` plus-sign code points. -/
def blockOut (c : Nat) : List Nat :=
  62 :: 62 :: 62 :: List.replicate c 43

/-- Abstract syntax of the printer-loop body: copy the data cell to the
first scratch, load 43 into the second scratch, print it while restoring
the data cell, clear the constant, print three `>` from 62, clear, and
move to the next data cell. -/
def astR : List BfInstr :=
  [.loop [.dec, .movr, .inc, .movl]] ++ [.movr] ++ [.movr] ++
    List.replicate 43 .inc ++ [.movl] ++
    [.loop [.dec, .movl, .inc, .movr, .movr, .out, .movl]] ++ [.movr] ++
    [.loop [.dec]] ++ List.replicate 62 .inc ++ [.out] ++ [.out] ++ [.out] ++
    [.loop [.dec]] ++ [.movr]

/-- Cost of one printer-loop block. -/
def rBlockCost (c : Nat) : Nat := 13 * c + 327

/-- Execution of one printer-loop block at a data cell holding `c` with
its two scratch zeros: prints `+` `c` times and `>` three times, restores
the cell, and steps onto the next data cell. -/
theorem runRBlock (c : Nat) (hc : 43 ≤ c ∧ c ≤ 93) (L RR X : List Nat) :
    RunTo (rBlockCost c) astR ⟨L, c, 0 :: 0 :: RR, X⟩
      (bfMoveR ⟨0 :: c :: L, 0, RR, blockOut c ++ X⟩) := by
  have h1 := runCopyLoop c 0 L (0 :: RR) X (by omega)
  rw [show 0 + c = c from by omega] at h1
  have h2 : RunTo 1 [.movr] ⟨L, 0, c :: 0 :: RR, X⟩ ⟨0 :: L, c, 0 :: RR, X⟩ :=
    RunTo.movr (RunTo.nil _)
  have h3 : RunTo 1 [.movr] ⟨0 :: L, c, 0 :: RR, X⟩ ⟨c :: 0 :: L, 0, RR, X⟩ :=
    RunTo.movr (RunTo.nil _)
  have h4 := runReplicateInc 43 0 (c :: 0 :: L) RR X (by omega)
  rw [show 0 + 43 = 43 from by omega] at h4
  have h5 : RunTo 1 [.movl] ⟨c :: 0 :: L, 43, RR, X⟩ ⟨0 :: L, c, 43 :: RR, X⟩ :=
    RunTo.movl (RunTo.nil _)
  have h6 := runPrintLoop c 0 43 L RR X (by omega)
  rw [show 0 + c = c from by omega] at h6
  have h7 : RunTo 1 [.movr] ⟨c :: L, 0, 43 :: RR, List.replicate c 43 ++ X⟩
      ⟨0 :: c :: L, 43, RR, List.replicate c 43 ++ X⟩ :=
    RunTo.movr (RunTo.nil _)
  have h8 := runClearLoop 43 (0 :: c :: L) RR (List.replicate c 43 ++ X) (by omega)
  have h9 := runReplicateInc 62 0 (0 :: c :: L) RR (List.replicate c 43 ++ X) (by omega)
  rw [show 0 + 62 = 62 from by omega] at h9
  have h10 : RunTo 1 [.out] ⟨0 :: c :: L, 62, RR, List.replicate c 43 ++ X⟩
      ⟨0 :: c :: L, 62, RR, 62 :: (List.replicate c 43 ++ X)⟩ :=
    RunTo.out (RunTo.nil _)
  have h11 : RunTo 1 [.out] ⟨0 :: c :: L, 62, RR, 62 :: (List.replicate c 43 ++ X)⟩
      ⟨0 :: c :: L, 62, RR, 62 :: 62 :: (List.replicate c 43 ++ X)⟩ :=
    RunTo.out (RunTo.nil _)
  have h12 : RunTo 1 [.out] ⟨0 :: c :: L, 62, RR, 62 :: 62 :: (List.replicate c 43 ++ X)⟩
      ⟨0 :: c :: L, 62, RR, blockOut c ++ X⟩ :=
    RunTo.out (RunTo.nil _)
  have h13 := runClearLoop 62 (0 :: c :: L) RR (blockOut c ++ X) (by omega)
  have h14 : RunTo 1 [.movr] ⟨0 :: c :: L, 0, RR, blockOut c ++ X⟩
      (bfMoveR ⟨0 :: c :: L, 0, RR, blockOut c ++ X⟩) :=
    RunTo.movr (RunTo.nil _)
  show RunTo (rBlockCost c) astR _ _
  unfold astR
  have k13 := h13.seq h14
  have k12 := h12.seq k13
  have k11 := h11.seq k12
  have k10 := h10.seq k11
  have k9 := h9.seq k10
  have k8 := h8.seq k9
  have k7 := h7.seq k8
  have k6 := h6.seq k7
  have k5 := h5.seq k6
  have k4 := h4.seq k5
  have k3 := h3.seq k4
  have k2 := h2.seq k3
  have k1 := h1.seq k2
  exact k1.cast (by unfold rBlockCost; omega)

/-- State entering the printer loop with the given remaining data cells:
on the next data cell, or on the loop-exit marker when none remain. -/
def loop1Entry : List Nat → List Nat → List Nat → BfState
  | [], L, X => ⟨L, 0, [46], X⟩
  | c :: rest, L, X => ⟨L, c, 0 :: 0 :: (rightData rest ++ [0, 46]), X⟩

/-- Cost of the printer loop over the given remaining data cells. -/
def loop1Cost : List Nat → Nat
  | [] => 1
  | c :: cs => rBlockCost c + loop1Cost cs + 1

/-- Output of the printer loop over the given data cells, most recent
first. -/
def loop1Out : List Nat → List Nat
  | [] => []
  | c :: cs => loop1Out cs ++ blockOut c

/-- Execution of the printer loop: prints the data-section text for every
remaining data cell, rebuilds the left tape, and stops on the marker. -/
theorem runLoop1 : ∀ (cs : List Nat), (∀ d ∈ cs, 43 ≤ d ∧ d ≤ 93) →
    ∀ (L X : List Nat),
    RunTo (loop1Cost cs) [.loop astR] (loop1Entry cs L X)
      ⟨tapeD cs L, 0, [46], loop1Out cs ++ X⟩ := by
  intro cs
  induction cs with
  | nil =>
    intro _ L X
    show RunTo 1 [.loop astR] ⟨L, 0, [46], X⟩ ⟨tapeD [] L, 0, [46], loop1Out [] ++ X⟩
    exact RunTo.loopSkip rfl (RunTo.nil _)
  | cons c rest ih =>
    intro hall L X
    have hc := hall c (List.mem_cons_self c rest)
    have hbody := runRBlock c hc L (rightData rest ++ [0, 46]) X
    have hmv : bfMoveR ⟨0 :: c :: L, 0, rightData rest ++ [0, 46], blockOut c ++ X⟩ =
        loop1Entry rest (0 :: 0 :: c :: L) (blockOut c ++ X) := by
      cases rest with
      | nil => rfl
      | cons d rest2 => rfl
    rw [hmv] at hbody
    have hcont := ih (fun d hd => hall d (List.mem_cons_of_mem c hd)) (0 :: 0 :: c :: L)
      (blockOut c ++ X)
    rw [← tapeD_cons, show loop1Out rest ++ (blockOut c ++ X) = loop1Out (c :: rest) ++ X from by
      rw [← List.append_assoc]; rfl] at hcont
    have := RunTo.loopIter
      (show (loop1Entry (c :: rest) L X).cur ≠ 0 from by show c ≠ 0; omega)
      hbody hcont
    exact this.cast (by simp [loop1Cost])

/-- Abstract syntax of the tail printer: print `>` from 62, clear, print
46 dots worth of `+` from 43, clear. -/
def astTail1 : List BfInstr :=
  List.replicate 62 .inc ++ [.out] ++ [.loop [.dec]] ++
    List.replicate 43 .inc ++ List.replicate 46 .out ++ [.loop [.dec]]

/-- Output of the tail printer, most recent first. -/
def tail1Out : List Nat :=
  List.replicate 46 43 ++ [62]

/-- Cost of the tail printer. -/
def tail1Cost : Nat := 62 + 1 + 125 + 43 + 46 + 87

/-- A run of output instructions prints the current cell repeatedly. -/
theorem runReplicateOut (k : Nat) : ∀ (c : Nat) (L R X : List Nat),
    RunTo k (List.replicate k .out) ⟨L, c, R, X⟩ ⟨L, c, R, List.replicate k c ++ X⟩ := by
  induction k with
  | zero =>
    intro c L R X
    exact RunTo.nil _
  | succ k ih =>
    intro c L R X
    rw [List.replicate_succ]
    refine RunTo.out ?_
    have h := ih c L R (c :: X)
    rw [show List.replicate k c ++ c :: X = List.replicate (k + 1) c ++ X from by
      rw [List.replicate_succ', List.append_assoc]; rfl] at h
    exact h

/-- Execution of the tail printer from the marker cell: prints `>` and
the 46 plus signs of the final data cell. -/
theorem runTail1 (L X : List Nat) :
    RunTo tail1Cost astTail1 ⟨L, 0, [46], X⟩ ⟨L, 0, [46], tail1Out ++ X⟩ := by
  have h1 := runReplicateInc 62 0 L [46] X (by omega)
  rw [show 0 + 62 = 62 from by omega] at h1
  have h2 : RunTo 1 [.out] ⟨L, 62, [46], X⟩ ⟨L, 62, [46], 62 :: X⟩ :=
    RunTo.out (RunTo.nil _)
  have h3 := runClearLoop 62 L [46] (62 :: X) (by omega)
  have h4 := runReplicateInc 43 0 L [46] (62 :: X) (by omega)
  rw [show 0 + 43 = 43 from by omega] at h4
  have h5 := runReplicateOut 46 43 L [46] (62 :: X)
  have h6 := runClearLoop 43 L [46] (List.replicate 46 43 ++ (62 :: X)) (by omega)
  have hout : List.replicate 46 43 ++ (62 :: X) = tail1Out ++ X := by
    rw [tail1Out, List.append_assoc]
    rfl
  rw [hout] at h5 h6
  show RunTo tail1Cost astTail1 _ _
  unfold astTail1
  have k5 := h5.seq h6
  have k4 := h4.seq k5
  have k3 := h3.seq k4
  have k2 := h2.seq k3
  have k1 := h1.seq k2
  exact k1.cast (by unfold tail1Cost; omega)

/-- The first return: from the final data-section cell (holding 46), four
left moves onto the last data cell and the walk to the cell three left of
the first data cell. -/
theorem runMovl4Walk (rev : List Nat) (hne : rev ≠ []) (hnz : ∀ d ∈ rev, d ≠ 0)
    (X : List Nat) :
    RunTo (4 * rev.length + 5)
      ([.movl, .movl, .movl, .movl] ++ [.loop [.movl, .movl, .movl]])
      ⟨0 :: tripleTape rev, 46, [], X⟩
      ⟨[], 0, tripleTape rev.reverse ++ [0, 0, 0, 46], X⟩ := by
  cases rev with
  | nil => exact absurd rfl hne
  | cons r0 rtail =>
    have h4 : RunTo 4 [.movl, .movl, .movl, .movl]
        ⟨0 :: tripleTape (r0 :: rtail), 46, [], X⟩
        ⟨tripleTape rtail, r0, [0, 0, 0, 46], X⟩ := by
      show RunTo 4 _ ⟨0 :: 0 :: 0 :: r0 :: tripleTape rtail, 46, [], X⟩ _
      exact RunTo.movl (RunTo.movl (RunTo.movl (RunTo.movl (RunTo.nil _))))
    have hwalk := runWalkLeft rtail (fun d hd => hnz d (List.mem_cons_of_mem r0 hd))
      [] (Or.inl rfl) r0 (hnz r0 (List.mem_cons_self r0 rtail)) [0, 0, 0, 46] X
    rw [List.append_nil] at hwalk
    rw [show rtail.reverse ++ [r0] = (r0 :: rtail).reverse from (List.reverse_cons r0 rtail).symm]
      at hwalk
    exact (h4.seq hwalk).cast (by simp; omega)

/-- The second return: from the marker cell, three left moves onto the
last data cell and the walk back to the cell three left of the first. -/
theorem runMovl3Walk (rev : List Nat) (hne : rev ≠ []) (hnz : ∀ d ∈ rev, d ≠ 0)
    (X : List Nat) :
    RunTo (4 * rev.length + 4)
      ([.movl, .movl, .movl] ++ [.loop [.movl, .movl, .movl]])
      ⟨tripleTape rev ++ [0, 0, 0], 0, [46], X⟩
      ⟨[], 0, tripleTape rev.reverse ++ [0, 0, 0, 46], X⟩ := by
  cases rev with
  | nil => exact absurd rfl hne
  | cons r0 rtail =>
    have h3 : RunTo 3 [.movl, .movl, .movl]
        ⟨tripleTape (r0 :: rtail) ++ [0, 0, 0], 0, [46], X⟩
        ⟨tripleTape rtail ++ [0, 0, 0], r0, [0, 0, 0, 46], X⟩ := by
      show RunTo 3 _ ⟨0 :: 0 :: r0 :: (tripleTape rtail ++ [0, 0, 0]), 0, [46], X⟩ _
      exact RunTo.movl (RunTo.movl (RunTo.movl (RunTo.nil _)))
    have hwalk := runWalkLeft rtail (fun d hd => hnz d (List.mem_cons_of_mem r0 hd))
      [0, 0, 0] (Or.inr rfl) r0 (hnz r0 (List.mem_cons_self r0 rtail)) [0, 0, 0, 46] X
    rw [show rtail.reverse ++ [r0] = (r0 :: rtail).reverse from (List.reverse_cons r0 rtail).symm]
      at hwalk
    exact (h3.seq hwalk).cast (by simp; omega)

/-- After a return walk, three right moves land on the first data cell in
the printer-loop entry configuration. -/
theorem runPostWalk (c1 : Nat) (cs : List Nat) (X : List Nat) :
    RunTo 3 [.movr, .movr, .movr] ⟨[], 0, tripleTape (c1 :: cs) ++ [0, 0, 0, 46], X⟩
      (loop1Entry (c1 :: cs) [0, 0, 0] X) := by
  show RunTo 3 _ ⟨[], 0, 0 :: 0 :: c1 :: (tripleTape cs ++ [0, 0, 0, 46]), X⟩
    ⟨[0, 0, 0], c1, 0 :: 0 :: (rightData cs ++ [0, 46]), X⟩
  rw [← tripleTape_shift]
  exact RunTo.movr (RunTo.movr (RunTo.movr (RunTo.nil _)))

/-- Execution of the character loop `[.>>>]`: prints each data cell as a
character and stops on the marker. -/
theorem runLoop2 : ∀ (cs : List Nat), (∀ d ∈ cs, d ≠ 0) → ∀ (L X : List Nat),
    RunTo (5 * cs.length + 1) [.loop [.out, .movr, .movr, .movr]] (loop1Entry cs L X)
      ⟨tapeD cs L, 0, [46], cs.reverse ++ X⟩ := by
  intro cs
  induction cs with
  | nil =>
    intro _ L X
    show RunTo (5 * ([] : List Nat).length + 1) _ ⟨L, 0, [46], X⟩
      ⟨tapeD [] L, 0, [46], List.reverse [] ++ X⟩
    exact (RunTo.loopSkip rfl (RunTo.nil _)).cast (by simp)
  | cons c rest ih =>
    intro hnz L X
    have hbody : RunTo 4 [.out, .movr, .movr, .movr] (loop1Entry (c :: rest) L X)
        (bfMoveR ⟨0 :: c :: L, 0, rightData rest ++ [0, 46], c :: X⟩) := by
      show RunTo 4 _ ⟨L, c, 0 :: 0 :: (rightData rest ++ [0, 46]), X⟩ _
      exact RunTo.out (RunTo.movr (RunTo.movr (RunTo.movr (RunTo.nil _))))
    have hmv : bfMoveR ⟨0 :: c :: L, 0, rightData rest ++ [0, 46], c :: X⟩ =
        loop1Entry rest (0 :: 0 :: c :: L) (c :: X) := by
      cases rest with
      | nil => rfl
      | cons d rest2 => rfl
    rw [hmv] at hbody
    have hcont := ih (fun d hd => hnz d (List.mem_cons_of_mem c hd)) (0 :: 0 :: c :: L) (c :: X)
    rw [← tapeD_cons, show rest.reverse ++ (c :: X) = (c :: rest).reverse ++ X from by
      rw [List.reverse_cons, List.append_assoc]; rfl] at hcont
    have := RunTo.loopIter
      (show (loop1Entry (c :: rest) L X).cur ≠ 0 from hnz c (List.mem_cons_self c rest))
      hbody hcont
    exact this.cast (by simp; omega)

/-- The final two instructions `>.`: step right onto the 46 cell and
print the dot. -/
theorem runFinalDot (L X : List Nat) :
    RunTo 2 [.movr, .out] ⟨L, 0, [46], X⟩ ⟨0 :: L, 46, [], 46 :: X⟩ :=
  RunTo.movr (RunTo.out (RunTo.nil _))

/-- Abstract syntax of the printer code: the two returns with their
walks, the printer loop, the tail printer, the character loop and the
final dot. -/
def astC : List BfInstr :=
  ([.movl, .movl, .movl, .movl] ++ [.loop [.movl, .movl, .movl]]) ++
  ([.movr, .movr, .movr] ++ ([.loop astR] ++ (astTail1 ++
  (([.movl, .movl, .movl] ++ [.loop [.movl, .movl, .movl]]) ++
  ([.movr, .movr, .movr] ++ ([.loop [.out, .movr, .movr, .movr]] ++ [.movr, .out]))))))

/-- Total cost of running the whole self-printing program. -/
def quineCost (codes : List Nat) : Nat :=
  dCost codes + ((4 * codes.length + 5) + (3 + (loop1Cost codes + (tail1Cost +
    ((4 * codes.length + 4) + (3 + ((5 * codes.length + 1) + 2)))))))

/-- Reversed output of the whole self-printing program: the final dot
over the printer characters over the tail text over the data-section
text. -/
def quineOutRev (codes : List Nat) : List Nat :=
  46 :: (codes.reverse ++ (tail1Out ++ loop1Out codes))

/-- Execution of the complete self-printing program: from the empty tape
it terminates with the reversed output `quineOutRev`. -/
theorem runQuine (c1 : Nat) (cs : List Nat) (hall : ∀ d ∈ c1 :: cs, 43 ≤ d ∧ d ≤ 93) :
    RunTo (quineCost (c1 :: cs)) (astD (c1 :: cs) ++ astC) ⟨[], 0, [], []⟩
      ⟨0 :: tapeD (c1 :: cs) [0, 0, 0], 46, [], quineOutRev (c1 :: cs)⟩ := by
  have hlt : ∀ d ∈ c1 :: cs, d < 256 := fun d hd => by have := hall d hd; omega
  have hnz : ∀ d ∈ (c1 :: cs).reverse, d ≠ 0 := by
    intro d hd
    have := hall d (List.mem_reverse.mp hd)
    omega
  have hnzf : ∀ d ∈ c1 :: cs, d ≠ 0 := fun d hd => by have := hall d hd; omega
  have hneR : (c1 :: cs).reverse ≠ [] := by simp
  have hD := runD (c1 :: cs) hlt [] []
  rw [tapeD_eq_tripleTape, List.append_nil] at hD
  have hR1 := runMovl4Walk (c1 :: cs).reverse hneR hnz []
  rw [List.reverse_reverse] at hR1
  have hP1 := runPostWalk c1 cs []
  have hL1 := runLoop1 (c1 :: cs) hall [0, 0, 0] []
  rw [List.append_nil] at hL1
  have hT1 := runTail1 (tapeD (c1 :: cs) [0, 0, 0]) (loop1Out (c1 :: cs))
  have hR2 := runMovl3Walk (c1 :: cs).reverse hneR hnz
    (tail1Out ++ loop1Out (c1 :: cs))
  rw [List.reverse_reverse, ← tapeD_eq_tripleTape] at hR2
  have hP2 := runPostWalk c1 cs (tail1Out ++ loop1Out (c1 :: cs))
  have hL2 := runLoop2 (c1 :: cs) hnzf [0, 0, 0] (tail1Out ++ loop1Out (c1 :: cs))
  have hF := runFinalDot (tapeD (c1 :: cs) [0, 0, 0])
    ((c1 :: cs).reverse ++ (tail1Out ++ loop1Out (c1 :: cs)))
  have k8 := hL2.seq hF
  have k7 := hP2.seq k8
  have k6 := hR2.seq k7
  have k5 := hT1.seq k6
  have k4 := hL1.seq k5
  have k3 := hP1.seq k4
  have k2 := hR1.seq k3
  have k1 := hD.seq k2
  show RunTo (quineCost (c1 :: cs)) (astD (c1 :: cs) ++ astC) _
    ⟨0 :: tapeD (c1 :: cs) [0, 0, 0], 46, [], quineOutRev (c1 :: cs)⟩
  unfold astC quineOutRev
  exact k1.cast (by simp [quineCost])

/-- One parse step on a plus sign. -/
theorem bfParseAux_step_plus (cs : List Char) (acc : List BfInstr)
    (stk : List (List BfInstr)) :
    bfParseAux ('+' :: cs) acc stk = bfParseAux cs (BfInstr.inc :: acc) stk := rfl

/-- One parse step on a right move. -/
theorem bfParseAux_step_movr (cs : List Char) (acc : List BfInstr)
    (stk : List (List BfInstr)) :
    bfParseAux ('>' :: cs) acc stk = bfParseAux cs (BfInstr.movr :: acc) stk := rfl

/-- Parsing a run of plus signs accumulates that many `inc` instructions. -/
theorem bfParseAux_replicate_inc (n : Nat) : ∀ (rest : List Char) (acc : List BfInstr)
    (stk : List (List BfInstr)),
    bfParseAux (List.replicate n '+' ++ rest) acc stk =
      bfParseAux rest (List.replicate n BfInstr.inc ++ acc) stk := by
  induction n with
  | zero => intro rest acc stk; rfl
  | succ n ih =>
    intro rest acc stk
    rw [List.replicate_succ, List.cons_append, bfParseAux_step_plus, ih,
      show List.replicate (n + 1) BfInstr.inc ++ acc =
        List.replicate n BfInstr.inc ++ (BfInstr.inc :: acc) from by
          rw [List.replicate_succ', List.append_assoc]; rfl]

/-- Parsing the data-section text accumulates the reversed data-section
syntax. -/
theorem bfParseAux_encodeD : ∀ (codes : List Nat) (rest : List Char) (acc : List BfInstr)
    (stk : List (List BfInstr)),
    bfParseAux (encodeDChars codes ++ rest) acc stk =
      bfParseAux rest ((astD codes).reverse ++ acc) stk := by
  intro codes
  induction codes with
  | nil =>
    intro rest acc stk
    show bfParseAux (('>' :: List.replicate 46 '+') ++ rest) acc stk = _
    rw [List.cons_append, bfParseAux_step_movr, bfParseAux_replicate_inc]
    have h2 : (astD []).reverse ++ acc =
        List.replicate 46 BfInstr.inc ++ (BfInstr.movr :: acc) := by
      show (BfInstr.movr :: List.replicate 46 BfInstr.inc).reverse ++ acc = _
      rw [List.reverse_cons, List.reverse_replicate, List.append_assoc]
      rfl
    rw [h2]
  | cons c cs ih =>
    intro rest acc stk
    show bfParseAux ((encodeDBlock c ++ encodeDChars cs) ++ rest) acc stk = _
    rw [List.append_assoc]
    show bfParseAux ((List.replicate c '+' ++ ['>', '>', '>']) ++
      (encodeDChars cs ++ rest)) acc stk = _
    rw [List.append_assoc, bfParseAux_replicate_inc, List.cons_append,
      bfParseAux_step_movr, List.cons_append, bfParseAux_step_movr,
      List.cons_append, bfParseAux_step_movr, List.nil_append, ih]
    have h4 : (astD (c :: cs)).reverse ++ acc =
        (astD cs).reverse ++ (BfInstr.movr :: BfInstr.movr :: BfInstr.movr ::
          (List.replicate c BfInstr.inc ++ acc)) := by
      show (astDBlock c ++ astD cs).reverse ++ acc = _
      rw [List.reverse_append, List.append_assoc]
      unfold astDBlock
      rw [List.reverse_append, List.reverse_replicate, List.append_assoc]
      rfl
    rw [h4]

set_option maxRecDepth 8000 in
/-- Parsing the printer text appends its syntax `astC` to the reversed
accumulator. -/
theorem bfParseAux_quineC (acc : List BfInstr) :
    bfParseAux bfQuineC.data acc [] = some (List.reverseAux acc astC) := rfl

/-- The complete self-printing program parses to its data-section syntax
followed by the printer syntax. -/
theorem bfParse_quine :
    bfParseAux bfQuineProgram.data [] [] = some (astD bfQuineCodes ++ astC) := by
  have h0 : bfQuineProgram.data = encodeDChars bfQuineCodes ++ bfQuineC.data := rfl
  rw [h0, bfParseAux_encodeD, bfParseAux_quineC]
  rw [List.reverseAux_eq, List.append_nil, List.reverse_reverse]

/-- Every character of the data-section text is a plus sign or a right
move. -/
theorem encodeDChars_mem : ∀ (codes : List Nat), ∀ c ∈ encodeDChars codes,
    c = '+' ∨ c = '>' := by
  intro codes
  induction codes with
  | nil =>
    intro c hc
    have hc2 : c ∈ '>' :: List.replicate 46 '+' := hc
    rcases List.mem_cons.mp hc2 with h | h
    · exact Or.inr h
    · exact Or.inl (List.eq_of_mem_replicate h)
  | cons d ds ih =>
    intro c hc
    have hc2 : c ∈ encodeDBlock d ++ encodeDChars ds := hc
    rcases List.mem_append.mp hc2 with h | h
    · have h3 : c ∈ List.replicate d '+' ++ ['>', '>', '>'] := h
      rcases List.mem_append.mp h3 with h4 | h4
      · exact Or.inl (List.eq_of_mem_replicate h4)
      · right
        simpa using h4
    · exact ih c h

set_option maxRecDepth 8000 in
/-- The self-printing program contains no input command. -/
theorem quine_no_comma_mem : ¬(',' ∈ bfQuineProgram.data) := by
  intro hmem
  have h0 : bfQuineProgram.data = encodeDChars bfQuineCodes ++ bfQuineC.data := rfl
  rw [h0] at hmem
  rcases List.mem_append.mp hmem with h | h
  · rcases encodeDChars_mem bfQuineCodes ',' h with h2 | h2 <;> exact absurd h2 (by decide)
  · exact absurd h (by decide)

/-- Boolean form of `quine_no_comma_mem`, matching the first guard of the
Brainfuck `crack`. -/
theorem quine_no_comma : bfQuineProgram.data.contains ',' = false := by
  cases hc : bfQuineProgram.data.contains ','
  · rfl
  · exfalso
    rcases List.contains_iff_exists_mem_beq.mp hc with ⟨b, hb, he⟩
    have hbe : ',' = b := eq_of_beq he
    exact quine_no_comma_mem (hbe ▸ hb)

set_option maxRecDepth 8000 in
/-- The self-printing program ends with a dot. -/
theorem quine_getLast : bfQuineProgram.data.getLast? = some '.' := by
  have h0 : bfQuineProgram.data = encodeDChars bfQuineCodes ++ bfQuineC.data := rfl
  rw [h0, List.getLast?_append]
  rw [show bfQuineC.data.getLast? = some '.' from by rfl]
  rfl

set_option maxRecDepth 8000 in
/-- Character counts of the printer text: 53 dots; 272 of its characters
are Brainfuck commands from `+-<>[]`. -/
theorem quineC_counts :
    List.countP (fun c => decide (c = '.')) bfQuineC.data = 53 ∧
    List.countP (fun c => "+-<>[]".data.contains c) bfQuineC.data = 272 :=
  ⟨rfl, rfl⟩

/-- The dot-count and last-character guard of the Brainfuck `crack` does
not fire on the self-printing program. -/
theorem quine_guard2 : ¬(¬(bfQuineProgram.data.getLast? = some '.') ∨
    strCountP (fun c => decide (c = '.')) bfQuineProgram < 5) := by
  push_neg
  refine ⟨quine_getLast, ?_⟩
  have h0 : strCountP (fun c => decide (c = '.')) bfQuineProgram =
      List.countP (fun c => decide (c = '.')) (encodeDChars bfQuineCodes) +
      List.countP (fun c => decide (c = '.')) bfQuineC.data := by
    show List.countP (fun c => decide (c = '.'))
      (encodeDChars bfQuineCodes ++ bfQuineC.data) = _
    rw [List.countP_append]
  rw [h0, quineC_counts.1]
  omega

/-- The instruction-count guard of the Brainfuck `crack` does not fire on
the self-printing program. -/
theorem quine_guard3 :
    ¬(strCountP (fun c => "+-<>[]".data.contains c) bfQuineProgram < 20) := by
  have h0 : strCountP (fun c => "+-<>[]".data.contains c) bfQuineProgram =
      List.countP (fun c => "+-<>[]".data.contains c) (encodeDChars bfQuineCodes) +
      List.countP (fun c => "+-<>[]".data.contains c) bfQuineC.data := by
    show List.countP (fun c => "+-<>[]".data.contains c)
      (encodeDChars bfQuineCodes ++ bfQuineC.data) = _
    rw [List.countP_append]
  rw [h0, quineC_counts.2]
  omega

/-- Mapping code points back to characters turns the reversed printer-loop
output followed by the final-cell text into the data-section text. -/
theorem loop1Out_chars : ∀ (codes : List Nat),
    List.map Char.ofNat ((loop1Out codes).reverse ++ (62 :: List.replicate 46 43)) =
      encodeDChars codes := by
  intro codes
  induction codes with
  | nil =>
    show List.map Char.ofNat (List.reverse [] ++ (62 :: List.replicate 46 43)) = _
    rw [List.reverse_nil, List.nil_append]
    show Char.ofNat 62 :: List.map Char.ofNat (List.replicate 46 43) = _
    rw [List.map_replicate]
    rfl
  | cons c cs ih =>
    show List.map Char.ofNat
      ((loop1Out cs ++ blockOut c).reverse ++ (62 :: List.replicate 46 43)) = _
    rw [List.reverse_append, List.append_assoc, List.map_append, ih]
    show List.map Char.ofNat (blockOut c).reverse ++ encodeDChars cs =
      encodeDBlock c ++ encodeDChars cs
    congr 1
    rw [show (blockOut c).reverse = List.replicate c 43 ++ [62, 62, 62] from by
      show (62 :: 62 :: 62 :: List.replicate c 43).reverse = _
      simp [List.reverse_cons, List.append_assoc]]
    rw [List.map_append, List.map_replicate]
    rfl

set_option maxRecDepth 8000 in
/-- Mapping code points back to characters recovers the printer text minus
its final dot. -/
theorem quineCodes_chars : List.map Char.ofNat bfQuineCodes = bfQuineC.data.dropLast := by
  rfl

set_option maxRecDepth 8000 in
/-- The printer text splits as its dropLast plus the final dot. -/
theorem quineC_data_split : bfQuineC.data.dropLast ++ ['.'] = bfQuineC.data := by
  rfl

/-- The reversed machine output of the self-printing program, read back as
characters, is exactly the program text. -/
theorem quineOut_chars :
    (quineOutRev bfQuineCodes).reverse.map (fun b => Char.ofNat b) =
      bfQuineProgram.data := by
  have e1 : (quineOutRev bfQuineCodes).reverse =
      ((loop1Out bfQuineCodes).reverse ++ (62 :: List.replicate 46 43)) ++
        (bfQuineCodes ++ [46]) := by
    show (46 :: (bfQuineCodes.reverse ++ (tail1Out ++ loop1Out bfQuineCodes))).reverse = _
    rw [List.reverse_cons, List.reverse_append, List.reverse_append,
      List.reverse_reverse]
    rw [show tail1Out.reverse = 62 :: List.replicate 46 43 from by
      show (List.replicate 46 43 ++ [62]).reverse = _
      rw [List.reverse_append, List.reverse_replicate]
      rfl]
    simp [List.append_assoc]
  rw [e1]
  rw [show (fun b => Char.ofNat b) = Char.ofNat from rfl]
  rw [List.map_append, loop1Out_chars, List.map_append, quineCodes_chars]
  show encodeDChars bfQuineCodes ++ (bfQuineC.data.dropLast ++ [Char.ofNat 46]) = _
  rw [show Char.ofNat 46 = '.' from rfl, quineC_data_split]
  rfl

/-- Evaluation of `bfInterpret` from a parse result and a run result. -/
theorem bfInterpret_eq_of (text : String) (prog : List BfInstr) (st : BfState)
    (hp : bfParseAux text.data [] [] = some prog)
    (hr : bfRun bfFuel prog ⟨[], 0, [], []⟩ = some st) :
    bfInterpret text = some (st.outRev.reverse.map (fun b => Char.ofNat b)) := by
  unfold bfInterpret
  rw [hp]
  dsimp only
  rw [hr]

set_option maxRecDepth 8000 in
/-- The self-printing program decodes to exactly its own text. -/
theorem bfInterpret_quine : bfInterpret bfQuineProgram = some bfQuineProgram.data := by
  have hcodes : bfQuineCodes = 60 :: bfQuineCodes.tail := by rfl
  have hall : ∀ d ∈ bfQuineCodes, 43 ≤ d ∧ d ≤ 93 := by decide
  have hrun := runQuine 60 bfQuineCodes.tail (by rw [← hcodes]; exact hall)
  rw [← hcodes] at hrun
  have hfuel : quineCost bfQuineCodes + 1 ≤ bfFuel := by decide
  have hb := bfRun_of_runTo hrun bfFuel hfuel
  rw [bfInterpret_eq_of bfQuineProgram (astD bfQuineCodes ++ astC) _ bfParse_quine hb]
  show some ((quineOutRev bfQuineCodes).reverse.map (fun b => Char.ofNat b)) = _
  rw [quineOut_chars]

/-- Evaluation of the Brainfuck `crack` when every guard passes and the
interpreter produces output: the decoded text is returned as the
candidate. -/
theorem brainfuckCrack_eval (checker : String → CheckResult) (text : String)
    (h1 : ¬(text.data.contains ',' = true))
    (h2 : ¬(¬(text.data.getLast? = some '.') ∨
      strCountP (fun c => decide (c = '.')) text < 5))
    (h3 : ¬(strCountP (fun c => "+-<>[]".data.contains c) text < 20))
    (outChars : List Char) (hdec : bfInterpret text = some outChars) :
    brainfuckCrack checker text =
      updateChecker { crackResultNew (List String) "Brainfuck" text with
        unencrypted_text := some [String.mk outChars] }
        (checker (String.mk outChars)) := by
  unfold brainfuckCrack
  dsimp only
  rw [if_neg h1, if_neg h2, if_neg h3, hdec]

/-- C1: counterexample.  The Brainfuck decoder does not apply the
trivial-reject contract of `check_string_success`: `bfQuineProgram` is a
guard-passing Brainfuck program whose interpretation prints exactly its
own source text, so the decoding step of `brainfuckCrack` produces a
string equal to the input, yet `crack` returns it as a candidate
(`unencrypted_text = some [input]` instead of the `none` the claim
requires). -/
theorem brainfuck_crack_accepts_self_reproducing_input :
    bfInterpret bfQuineProgram = some bfQuineProgram.data ∧
    (brainfuckCrack nullChecker bfQuineProgram).unencrypted_text =
      some [bfQuineProgram] := by
  refine ⟨bfInterpret_quine, ?_⟩
  have hA : ¬(bfQuineProgram.data.contains ',' = true) := by
    rw [quine_no_comma]
    exact Bool.false_ne_true
  rw [brainfuckCrack_eval nullChecker bfQuineProgram hA quine_guard2 quine_guard3
    bfQuineProgram.data bfInterpret_quine]
  rfl
